import Mathlib

/-!
Verification of the Scoped Unit-Aware Incremental Calculation Engine
(Engineering-Toolbox, src/src/calcEngine.ts, src/src/utils/format.ts,
src/src/utils/types.ts) against its natural-language specification.

The TypeScript source is shallowly embedded:
* JavaScript `Map`/`Set` objects become association lists / duplicate-free
  lists with insertion-order-preserving `set`/`add`/`delete` operations,
  mirroring the iteration-order semantics of the originals.
* The regular expressions used by the engine (`isAssignment`, `isConvert`,
  `splitConvert`, `trimZeros`) are translated into explicit character-list
  scanners whose behaviour coincides with JavaScript regex matching on the
  patterns in question (all patterns are anchored suffix/prefix scans, so
  backtracking disappears; comments at each definition justify this).
* The external mathjs collaborator (`math.evaluate`, `math.parse`) is
  modelled on the fragment the engine exercises: integer literals, variable
  references, `+` and `*`, with errors for unknown symbols and for inputs
  outside the grammar.  Values are plain numbers (`Int`); the engine treats
  values opaquely, so the unit-bearing branches of the formatter degenerate
  to the plain-number branch, which is the one embedded here.
-/

namespace Toolbox

/-- Values produced by the arithmetic collaborator.  The engine never
inspects values except through formatting; the model uses exact integers. -/
abbrev Value := Int

/-! ### JavaScript `Map` and `Set` models (insertion ordered) -/

/-- Lookup in a JS `Map` modelled as an association list. -/
def jsGet {α : Type} (m : List (String × α)) (k : String) : Option α :=
  (m.find? (fun p => p.1 == k)).map (fun p => p.2)

/-- JS `Map.has`. -/
def jsContains {α : Type} (m : List (String × α)) (k : String) : Bool :=
  (jsGet m k).isSome

/-- JS `Map.set`: update the entry in place when the key exists, otherwise
append a new entry. -/
def jsSet {α : Type} (m : List (String × α)) (k : String) (v : α) :
    List (String × α) :=
  match m with
  | [] => [(k, v)]
  | p :: r => if p.1 == k then (k, v) :: r else p :: jsSet r k v

/-- JS `Map.delete`. -/
def jsDelete {α : Type} (m : List (String × α)) (k : String) :
    List (String × α) :=
  m.filter (fun p => p.1 != k)

/-- JS `Set.add`: append when absent. -/
def jsAdd (s : List String) (k : String) : List String :=
  if s.contains k then s else s ++ [k]

/-- JS `Set.delete`. -/
def jsSetDelete (s : List String) (k : String) : List String :=
  s.filter (fun x => x != k)

/-! ### Character classes and string helpers (JS semantics) -/

/-- The JavaScript whitespace class matched by regex `\s` and trimmed by
`String.prototype.trim`. -/
def wsChar (c : Char) : Bool :=
  let n := c.toNat
  n == 9 || n == 10 || n == 11 || n == 12 || n == 13 || n == 32 ||
  n == 160 || n == 0x1680 || (0x2000 ≤ n && n ≤ 0x200a) || n == 0x2028 ||
  n == 0x2029 || n == 0x202f || n == 0x205f || n == 0x3000 || n == 0xfeff

/-- JavaScript line terminators (not matched by regex `.`). -/
def lineTermChar (c : Char) : Bool :=
  let n := c.toNat
  n == 10 || n == 13 || n == 0x2028 || n == 0x2029

/-- `[A-Za-z_]` (code points 65-90, 97-122, 95). -/
def identStartChar (c : Char) : Bool :=
  let n := c.toNat
  (65 ≤ n && n ≤ 90) || (97 ≤ n && n ≤ 122) || n == 95

/-- `[0-9]` (code points 48-57). -/
def digitChar (c : Char) : Bool := 48 ≤ c.toNat && c.toNat ≤ 57

def identChar (c : Char) : Bool := identStartChar c || digitChar c

/-- `[1-9]` (code points 49-57). -/
def digit19 (c : Char) : Bool := 49 ≤ c.toNat && c.toNat ≤ 57

def trimList (l : List Char) : List Char :=
  ((l.dropWhile wsChar).reverse.dropWhile wsChar).reverse

/-- `String.prototype.trim`. -/
def jsTrim (s : String) : String := ⟨trimList s.data⟩

/-- Split a character list at every occurrence of `sep`; always returns at
least one (possibly empty) segment, like JS `String.prototype.split`. -/
def splitListOn (sep : Char) : List Char → List (List Char)
  | [] => [[]]
  | c :: r =>
    match splitListOn sep r with
    | [] => if c == sep then [[], []] else [[c]]
    | h :: t => if c == sep then [] :: h :: t else (c :: h) :: t

/-- One segment of `source.split(/\r?\n/)`: strip a carriage return that
preceded the newline separator. -/
def dropTrailingCRL (l : List Char) : List Char :=
  match l.reverse with
  | '\r' :: r => r.reverse
  | _ => l

/-- `source.split(/\r?\n/)`: split at each `\n`, the `\r?` consuming a
carriage return immediately before it. -/
def splitLines (s : String) : List String :=
  (splitListOn '\n' s.data).map (fun l => ⟨dropTrailingCRL l⟩)

/-- `String.prototype.startsWith`. -/
def startsWithChars : List Char → List Char → Bool
  | _, [] => true
  | [], _ :: _ => false
  | c :: cs, p :: ps => c == p && startsWithChars cs ps

/-! ### The regexes of `calcEngine.ts`, as explicit scanners -/

/-- Test for `/^[A-Za-z_][A-Za-z0-9_]*$/` (`isValidIdentifier`). -/
def isValidIdentifier (name : String) : Bool :=
  match name.data with
  | [] => false
  | c :: r => identStartChar c && r.all identChar

/-- Tail of the assignment regex after the `=`: `\s*.+$`.  Some (possibly
empty) prefix of JS whitespace, then at least one character, none of which
may be a line terminator (regex `.`). -/
def assignTail (r : List Char) : Bool :=
  (List.range r.length).any (fun k =>
    (r.take k).all wsChar && !(r.drop k).isEmpty &&
    (r.drop k).all (fun c => !lineTermChar c))

/-- `/^[A-Za-z_][A-Za-z0-9_]*\s*=\s*.+$/` (`isAssignment`).  The character
classes `[A-Za-z0-9_]`, `\s` and the literal `=` are pairwise disjoint, so
the leading part of the match is deterministic maximal munch. -/
def isAssignment (line : String) : Bool :=
  match line.data with
  | [] => false
  | c :: r =>
    identStartChar c &&
    (match (r.dropWhile identChar).dropWhile wsChar with
     | '=' :: r3 => assignTail r3
     | _ => false)

/-- `splitAssignment`: split at the first `=` (`String.prototype.indexOf`),
trimming both parts.  Only called when `isAssignment` matched, so an `=`
is present. -/
def splitAssignment (line : String) : String × String :=
  let l := line.data
  let i := l.findIdx (fun c => c == '=')
  (jsTrim ⟨l.take i⟩, jsTrim ⟨l.drop (i + 1)⟩)

/-- Does `\s(->|to)\s` match at offset `i`?  (Both alternatives are two
characters long.) -/
def sepAt (l : List Char) (i : Nat) : Bool :=
  match l.drop i with
  | a :: b :: c :: d :: _ =>
    wsChar a && ((b == '-' && c == '>') || (b == 't' && c == 'o')) && wsChar d
  | _ => false

/-- `/\s(->|to)\s/.test(line)` (`isConvert`). -/
def isConvert (line : String) : Bool :=
  (List.range line.data.length).any (sepAt line.data)

/-- A character matched by regex `.` (anything but a line terminator). -/
def dotChar (c : Char) : Bool := !lineTermChar c

/-- Does `/^(.*)\s(?:->|to)\s(.*?)$/` succeed with group 1 of length `i`?
Besides the separator block at offset `i` (matched by `\s(?:->|to)\s`,
whose `\s` may itself be a line terminator), regex `.` forbids line
terminators inside both captured groups: group 1 is the prefix before the
separator, group 2 — lazy but forced by `$` to the end of the string — is
everything after it. -/
def convAt (l : List Char) (i : Nat) : Bool :=
  sepAt l i && (l.take i).all dotChar && (l.drop (i + 4)).all dotChar

/-- `line.match(/^(.*)\s(?:->|to)\s(.*?)$/)` (`splitConvert`).  The greedy
`(.*)` backtracks from the longest terminator-free prefix, so the match —
when one exists — places the separator at the LAST offset whose
surrounding groups are terminator-free; `(.*?)$` then takes the remainder.
`none` (no such offset, e.g. an embedded bare carriage return on an
`isConvert`-accepted line) corresponds to the thrown
"Bad convert syntax. Use: expr -> unit". -/
def splitConvert (line : String) : Option (String × String) :=
  match ((List.range line.data.length).filter (convAt line.data)).getLast? with
  | some i =>
    some (jsTrim ⟨line.data.take i⟩, jsTrim ⟨line.data.drop (i + 4)⟩)
  | none => none

/-! ### `hashString` (32-bit string hash, base-36 rendered) -/

/-- Wrap an integer to the signed 32-bit range (JS `| 0`). -/
def wrap32 (n : Int) : Int := (n + 2 ^ 31) % 2 ^ 32 - 2 ^ 31

/-- UTF-16 code units of one character (JS `charCodeAt`). -/
def utf16Codes (c : Char) : List Nat :=
  let n := c.toNat
  if n < 0x10000 then [n]
  else [0xd800 + (n - 0x10000) / 0x400, 0xdc00 + (n - 0x10000) % 0x400]

/-- One lowercase base-36 digit, as produced by JS `toString(36)`. -/
def base36Digit (n : Nat) : Char :=
  if n < 10 then Char.ofNat ('0'.toNat + n) else Char.ofNat ('a'.toNat + n - 10)

def natToBase36Aux (fuel : Nat) (n : Nat) (acc : List Char) : List Char :=
  match fuel with
  | 0 => acc
  | fuel + 1 =>
    if n < 36 then base36Digit n :: acc
    else natToBase36Aux fuel (n / 36) (base36Digit (n % 36) :: acc)

/-- JS `Number.prototype.toString(36)` for a natural number.  The fuel
`n + 1` strictly bounds the quotient chain, so it never runs out. -/
def natToBase36 (n : Nat) : String := ⟨natToBase36Aux (n + 1) n []⟩

/-- `hashString` of `calcEngine.ts`: `hash = (hash << 5) - hash + code; hash |= 0`
per code unit, then `Math.abs(hash).toString(36)`. -/
def hashString (input : String) : String :=
  let codes := (input.data.map utf16Codes).flatten
  let h := codes.foldl (fun h c => wrap32 (wrap32 (h * 32) - h + Int.ofNat c)) 0
  natToBase36 h.natAbs

/-! ### `format.ts`: `toFixed`, `trimZeros`, `formatValueParts` -/

/-- JS `Number.prototype.toFixed` on an exact integer value: the decimal
rendering followed by `p` zero decimals (none when `p = 0`). -/
def toFixed (n : Int) (p : Nat) : String :=
  if p == 0 then toString n else toString n ++ "." ++ ⟨List.replicate p '0'⟩

/-- First replace of `trimZeros`: `x.replace(/(\.\d*?[1-9])0+$/, "$1")`.
The pattern is anchored at `$`, so a match is exactly a suffix of the form
dot, digits, a nonzero digit, then one or more zeros; scanning from the end
of the string is therefore equivalent to regex matching. -/
def stripA (l : List Char) : List Char :=
  if (l.reverse.takeWhile (fun c => c == '0')).length == 0 then l
  else
    match l.reverse.drop (l.reverse.takeWhile (fun c => c == '0')).length with
    | c :: rest =>
      if digit19 c then
        match rest.dropWhile digitChar with
        | '.' :: _ =>
          (l.reverse.drop
            (l.reverse.takeWhile (fun c => c == '0')).length).reverse
        | _ => l
      else l
    | [] => l

/-- Second replace of `trimZeros`: `.replace(/\.0+$/, "")`.  Again anchored
at `$`: a match is a suffix consisting of a dot followed only by zeros. -/
def stripB (l : List Char) : List Char :=
  if (l.reverse.takeWhile (fun c => c == '0')).length == 0 then l
  else
    match l.reverse.drop (l.reverse.takeWhile (fun c => c == '0')).length with
    | '.' :: rest => rest.reverse
    | _ => l

/-- `trimZeros` of `format.ts`. -/
def trimZeros (s : String) : String := ⟨stripB (stripA s.data)⟩

/-- Drop the trailing `'0'` characters of a digit string (specification
device for the `trimZeros` lemmas). -/
def dropTrailingZeros (f : List Char) : List Char :=
  (f.reverse.dropWhile (fun c => c == '0')).reverse

inductive UnitSystem | SI | US
deriving DecidableEq, Repr

structure FormattedValueParts where
  magnitude : String
  unit : String
  display : String
deriving DecidableEq, Repr

/-- `formatValueParts` of `format.ts`.  The model's values are always plain
numbers, so only the `typeof value === "number"` branch of the source is
exercised; the unit-object branches are unreachable for `Value = Int` and
are not represented.  The `system`/`skipSystemConversion` arguments are
kept because the call sites pass them. -/
def formatValueParts (value : Value) (precision : Nat) (_system : UnitSystem)
    (_skipSystemConversion : Bool) : FormattedValueParts :=
  let magnitude := trimZeros (toFixed value precision)
  ⟨magnitude, "", magnitude⟩

/-- `normalizeUnitToSystem` of `format.ts`: a plain number is not a unit
(`isUnit` fails), so it is returned unchanged. -/
def normalizeUnitToSystem (value : Value) (_system : UnitSystem) : Value :=
  value

/-! ### The mathjs collaborator, modelled on the fragment the engine uses -/

/-- Syntax trees produced by `math.parse` on the modelled fragment:
integer literals, symbol references, `+` and `*`. -/
inductive MathExpr
  | num (n : Int)
  | sym (name : String)
  | add (a b : MathExpr)
  | mul (a b : MathExpr)
deriving DecidableEq, Repr

inductive Token
  | ident (s : String)
  | num (n : Nat)
  | plus
  | star
  | lparen
  | rparen
deriving DecidableEq, Repr

def digitsToNat (ds : List Char) : Nat :=
  ds.foldl (fun a c => a * 10 + (c.toNat - '0'.toNat)) 0

theorem length_dropWhile_le (p : Char → Bool) (l : List Char) :
    (l.dropWhile p).length ≤ l.length := by
  induction l with
  | nil => simp [List.dropWhile]
  | cons c r ih =>
    by_cases h : p c
    · simp only [List.dropWhile, h, List.length_cons]
      omega
    · simp [List.dropWhile, h]

/-- Tokenizer for the modelled expression grammar, structurally recursive
on a fuel bound so that concrete runs reduce in the kernel. -/
def tokenizeFuel (fuel : Nat) (l : List Char) : Option (List Token) :=
  match fuel with
  | 0 => none
  | fuel + 1 =>
    match l with
    | [] => some []
    | c :: r =>
      if wsChar c then tokenizeFuel fuel r
      else if digitChar c then
        let ds := (c :: r).takeWhile digitChar
        let rest := r.dropWhile digitChar
        (tokenizeFuel fuel rest).map (fun ts => Token.num (digitsToNat ds) :: ts)
      else if identStartChar c then
        let ds := (c :: r).takeWhile identChar
        let rest := r.dropWhile identChar
        (tokenizeFuel fuel rest).map (fun ts => Token.ident ⟨ds⟩ :: ts)
      else if c == '+' then (tokenizeFuel fuel r).map (fun ts => Token.plus :: ts)
      else if c == '*' then (tokenizeFuel fuel r).map (fun ts => Token.star :: ts)
      else if c == '(' then (tokenizeFuel fuel r).map (fun ts => Token.lparen :: ts)
      else if c == ')' then (tokenizeFuel fuel r).map (fun ts => Token.rparen :: ts)
      else none

/-- Each tokenizer step consumes at least one character, so `length + 1`
fuel always suffices. -/
def tokenize (l : List Char) : Option (List Token) :=
  tokenizeFuel (l.length + 1) l

/-- Which production the parser is working on: an expression at a
precedence level, or the iterated operator tail at that level. -/
inductive PCall
  | expr (lvl : Nat)
  | more (lvl : Nat) (acc : MathExpr)

/-- Recursive-descent parser, level 0 = atom, 1 = product, 2 = sum,
structurally recursive on fuel. -/
def parseGo (fuel : Nat) (call : PCall) (ts : List Token) :
    Option (MathExpr × List Token) :=
  match fuel with
  | 0 => none
  | fuel + 1 =>
    match call with
    | .expr 0 =>
      match ts with
      | Token.num n :: r => some (MathExpr.num (Int.ofNat n), r)
      | Token.ident s :: r => some (MathExpr.sym s, r)
      | Token.lparen :: r =>
        match parseGo fuel (.expr 2) r with
        | some (e, Token.rparen :: r2) => some (e, r2)
        | _ => none
      | _ => none
    | .expr 1 =>
      (parseGo fuel (.expr 0) ts).bind (fun p => parseGo fuel (.more 1 p.1) p.2)
    | .expr _ =>
      (parseGo fuel (.expr 1) ts).bind (fun p => parseGo fuel (.more 2 p.1) p.2)
    | .more 1 acc =>
      match ts with
      | Token.star :: r =>
        (parseGo fuel (.expr 0) r).bind
          (fun p => parseGo fuel (.more 1 (MathExpr.mul acc p.1)) p.2)
      | _ => some (acc, ts)
    | .more _ acc =>
      match ts with
      | Token.plus :: r =>
        (parseGo fuel (.expr 1) r).bind
          (fun p => parseGo fuel (.more 2 (MathExpr.add acc p.1)) p.2)
      | _ => some (acc, ts)

/-- `math.parse` on the modelled fragment: `some` iff the whole input is a
well-formed expression. -/
def mathParse (s : String) : Option MathExpr :=
  (tokenize s.data).bind (fun ts =>
    match parseGo (ts.length * 4 + 8) (.expr 2) ts with
    | some (e, []) => some e
    | _ => none)

/-- Evaluation of a parsed expression against a variable binding; an
unresolved symbol raises mathjs's "Undefined symbol" error. -/
def mathEvalExpr : MathExpr → (String → Option Value) → Except String Value
  | .num n, _ => .ok n
  | .sym s, env =>
    match env s with
    | some v => .ok v
    | none => .error ("Undefined symbol " ++ s)
  | .add a b, env =>
    match mathEvalExpr a env with
    | .error e => .error e
    | .ok x =>
      match mathEvalExpr b env with
      | .error e => .error e
      | .ok y => .ok (x + y)
  | .mul a b, env =>
    match mathEvalExpr a env with
    | .error e => .error e
    | .ok x =>
      match mathEvalExpr b env with
      | .error e => .error e
      | .ok y => .ok (x * y)

/-- `math.evaluate(src, scope)`: parse then evaluate; inputs outside the
grammar raise a syntax error. -/
def mathEvaluate (src : String) (env : String → Option Value) :
    Except String Value :=
  match mathParse src with
  | some e => mathEvalExpr e env
  | none => .error ("SyntaxError: could not parse " ++ src)

/-- `node.traverse` collecting `SymbolNode` names into a JS `Set`
(pre-order, parent before children, left to right). -/
def collectSymbols : MathExpr → List String → List String
  | .num _, acc => acc
  | .sym s, acc => jsAdd acc s
  | .add a b, acc => collectSymbols b (collectSymbols a acc)
  | .mul a b, acc => collectSymbols b (collectSymbols a acc)

def freeVarsE (e : MathExpr) : List String := collectSymbols e []

/-! ### Data model (`utils/types.ts`) -/

structure VarEntry where
  value : Value
  display : String
  magnitude : String
  unit : String
  sourceLine : Option String
deriving DecidableEq, Repr

structure GlobalVarEntry where
  value : Value
  display : String
  magnitude : String
  unit : String
  source : String
deriving DecidableEq, Repr

/-- A persisted global-constant record as read back from disk: the engine
defends against absent fields with `??`, so they are optional here. -/
structure PersistedGlobalVarEntry where
  value : Value
  display : Option String
  magnitude : Option String
  unit : Option String
  source : Option String
deriving DecidableEq, Repr

inductive CacheEntryType | expression | convert
deriving DecidableEq, Repr

structure LineCacheEntry where
  expr : String
  value : Value
  display : String
  dependencies : List String
  type : CacheEntryType
  targetUnit : Option String
deriving DecidableEq, Repr

structure NoteScope where
  vars : List (String × VarEntry)
  formulas : List (String × String)
  dependencies : List (String × List String)
  dependents : List (String × List String)
  lineCache : List (String × LineCacheEntry)
deriving DecidableEq, Repr

def emptyNoteScope : NoteScope := ⟨[], [], [], [], []⟩

structure Settings where
  autoRecalc : Bool
  defaultUnitSystem : UnitSystem
  sigFigs : Nat
  globalVarsEnabled : Bool
  latexFormatting : Bool
deriving DecidableEq, Repr

/-- The observable state of a `CalcEngine` instance (its `scopes` and
`globalVars` maps) together with the plugin settings it reads. -/
structure CalcState where
  scopes : List (String × NoteScope)
  globalVars : List (String × GlobalVarEntry)
  settings : Settings
deriving DecidableEq, Repr

structure EvaluateOptions where
  persist : Option Bool
  scope : Option NoteScope
  resetScope : Option Bool
  blockKey : Option String
deriving DecidableEq, Repr

inductive EvaluatedLineType
  | blank | comment | assignment | convert | expression | error
deriving DecidableEq, Repr

structure EvaluatedLine where
  raw : String
  line : String
  type : EvaluatedLineType
  name : Option String
  expr : Option String
  target : Option String
  value : Option Value
  display : Option String
  displayValue : Option Value
  magnitude : Option String
  unit : Option String
  plain : Option String
  text : Option String
  error : Option String
deriving DecidableEq, Repr

/-- An `EvaluatedLine` with only the always-present fields set. -/
def baseEntry (raw line : String) (type : EvaluatedLineType) : EvaluatedLine :=
  ⟨raw, line, type, none, none, none, none, none, none, none, none, none,
    none, none⟩

/-- The `LineResult` union of `calcEngine.ts`. -/
inductive LineResult
  | comment (text plain : String)
  | assignment (name expr : String) (value displayValue : Value)
      (display magnitude unit plain : String)
  | conversion (expr target : String) (value displayValue : Value)
      (display magnitude unit plain : String)
  | expression (expr : String) (value displayValue : Value)
      (display magnitude unit plain : String)
deriving DecidableEq, Repr

/-! ### Engine operations (`calcEngine.ts`)

The UI-collaborator calls (`plugin.handleScopeChanged`,
`plugin.refreshVariablesView`, `plugin.saveToolkitData`, DOM construction)
have no effect on engine state and are outside the model. -/

/-- `getScope`: resolve or lazily create the Note Scope for a path.  The
model's `NoteScope` always carries all five maps, so `ensureScopeMaps` is
the identity. -/
def getScope (st : CalcState) (filePath : String) : NoteScope × CalcState :=
  match jsGet st.scopes filePath with
  | some s => (s, st)
  | none =>
    (emptyNoteScope,
      { st with scopes := jsSet st.scopes filePath emptyNoteScope })

/-- `peekScope`. -/
def peekScope (st : CalcState) (filePath : String) : Option NoteScope :=
  jsGet st.scopes filePath

/-- `clearScope`. -/
def clearScope (st : CalcState) (filePath : String) : CalcState :=
  { st with scopes := jsDelete st.scopes filePath }

/-- `clearAllScopes`. -/
def clearAllScopes (st : CalcState) : CalcState := { st with scopes := [] }

/-- The variable binding `evalExpression` builds: global constants (when
the feature is enabled) overlaid by the note scope's variables. -/
def evalEnv (st : CalcState) (scope : NoteScope) : String → Option Value :=
  fun k =>
    match jsGet scope.vars k with
    | some e => some e.value
    | none =>
      if st.settings.globalVarsEnabled then
        (jsGet st.globalVars k).map (fun g => g.value)
      else none

/-- `evalExpression`. -/
def evalExpression (st : CalcState) (expr : String) (scope : NoteScope) :
    Except String Value :=
  mathEvaluate expr (evalEnv st scope)

/-- The branch structure of `evaluateLine`: comment prefix, then
`isAssignment`, then `isConvert`, else plain expression. -/
inductive LineClass
  | comment
  | assignment (name expr : String)
  | convert (expr target : String)
  | convertError
  | expression (expr : String)
deriving DecidableEq, Repr

def classifyLine (line : String) : LineClass :=
  if startsWithChars line.data ['/', '/'] || startsWithChars line.data ['#'] then
    .comment
  else if isAssignment line then
    let p := splitAssignment line
    .assignment p.1 p.2
  else if isConvert line then
    match splitConvert line with
    | some (e, t) => .convert e t
    | none => .convertError
  else .expression line

/-- `formatForEvaluation`: normalize to the display system, then format
with `skipSystemConversion`. -/
def formatForEvaluation (settings : Settings) (value : Value)
    (system : UnitSystem) : Value × FormattedValueParts :=
  let displayValue := normalizeUnitToSystem value system
  (displayValue, formatValueParts displayValue settings.sigFigs system true)

/-- `evaluateLine`.  `Except.error` models a thrown exception; the source
mutates `scope.vars` only after the (sole throwing) evaluation succeeded,
so the returned scope on the error side is untouched. -/
def evaluateLine (st : CalcState) (line : String) (scope : NoteScope)
    (system : UnitSystem) (sourceLine : Option String) :
    Except String (LineResult × NoteScope) :=
  match classifyLine line with
  | .comment => .ok (.comment line line, scope)
  | .assignment name expr =>
    match evalExpression st expr scope with
    | .error e => .error e
    | .ok value =>
      let fe := formatForEvaluation st.settings value system
      let entry : VarEntry :=
        ⟨value, fe.2.display, fe.2.magnitude, fe.2.unit, sourceLine⟩
      let scope1 := { scope with vars := jsSet scope.vars name entry }
      .ok (.assignment name expr value fe.1 fe.2.display fe.2.magnitude
        fe.2.unit (name ++ " = " ++ fe.2.display), scope1)
  | .convert expr target =>
    match evalExpression st expr scope with
    | .error e => .error e
    | .ok original =>
      let converted := original
      let formatted := formatValueParts converted st.settings.sigFigs system true
      .ok (.conversion expr target converted converted formatted.display
        formatted.magnitude formatted.unit
        (expr ++ " → " ++ target ++ " = " ++ formatted.display), scope)
  | .convertError => .error ("Bad convert syntax. Use: expr -> unit")
  | .expression expr =>
    match evalExpression st expr scope with
    | .error e => .error e
    | .ok value =>
      let fe := formatForEvaluation st.settings value system
      .ok (.expression expr value fe.1 fe.2.display fe.2.magnitude fe.2.unit
        (expr ++ " = " ++ fe.2.display), scope)

/-- `analyzeDependencies`: parse and collect symbol names; parse failure
yields the empty set (plus a logged diagnostic, outside the model). -/
def analyzeDependencies (expr : String) : List String :=
  match mathParse expr with
  | some node => freeVarsE node
  | none => []

/-- `updateDependencyGraph`. -/
def updateDependencyGraph (scope : NoteScope) (name : String) (expr : String)
    (dependencies : List String) : NoteScope :=
  let previous := jsGet scope.dependencies name
  let depts :=
    match previous with
    | some prev =>
      prev.foldl (fun m dep =>
        if !(dependencies.contains dep) then
          match jsGet m dep with
          | some ds =>
            let ds2 := jsSetDelete ds name
            if ds2.isEmpty then jsDelete m dep else jsSet m dep ds2
          | none => m
        else m) scope.dependents
    | none => scope.dependents
  let depts2 :=
    dependencies.foldl (fun m dep =>
      let cur := (jsGet m dep).getD []
      jsSet m dep (jsAdd cur name)) depts
  { scope with
    dependents := depts2,
    dependencies := jsSet scope.dependencies name dependencies,
    formulas := jsSet scope.formulas name expr }

/-! ### `evaluateToEntries` -/

def optPersist (options : Option EvaluateOptions) : Bool :=
  (options.bind (fun o => o.persist)).getD true

def optResetScope (options : Option EvaluateOptions) : Bool :=
  (options.bind (fun o => o.resetScope)).getD false

def optBlockKey (options : Option EvaluateOptions) (filePath source : String) :
    String :=
  (options.bind (fun o => o.blockKey)).getD
    (filePath ++ ":" ++ hashString source)

/-- Lines 252-263 of `calcEngine.ts`: choose the working scope.  For the
persisting path the engine's `scopes` map may change (reset deletes the
entry, `getScope` lazily creates one). -/
def resolveWorkingScope (st : CalcState) (filePath : String)
    (options : Option EvaluateOptions) : NoteScope × CalcState :=
  if optPersist options then
    let st1 := if optResetScope options then clearScope st filePath else st
    getScope st1 filePath
  else
    match options.bind (fun o => o.scope) with
    | some s => (if optResetScope options then { s with vars := [] } else s, st)
    | none => (emptyNoteScope, st)

/-- Accumulator of the per-line `forEach` loop. -/
structure LoopSt where
  scope : NoteScope
  entries : List EvaluatedLine
  visited : List String
deriving DecidableEq, Repr

/-- The body of the `forEach` loop in `evaluateToEntries`: trim, record the
line key, then classify/evaluate, catching any thrown error into an
`error` entry for that line alone. -/
def lineStep (st : CalcState) (blockKey : String) (acc : LoopSt)
    (index : Nat) (raw : String) : LoopSt :=
  let line := jsTrim raw
  let lineKey := blockKey ++ ":" ++ toString index
  let visited := jsAdd acc.visited lineKey
  if line == "" then
    { acc with
      entries := acc.entries ++ [baseEntry raw "" .blank],
      visited := visited }
  else
    match evaluateLine st line acc.scope st.settings.defaultUnitSystem
        (some (jsTrim raw)) with
    | .error msg =>
      { scope := acc.scope,
        entries := acc.entries ++
          [{ baseEntry raw line .error with
              error := some msg, plain := some line }],
        visited := visited }
    | .ok (result, scope1) =>
      match result with
      | .comment text plain =>
        { scope := scope1,
          entries := acc.entries ++
            [{ baseEntry raw line .comment with
                text := some text, plain := some plain }],
          visited := visited }
      | .assignment name expr value displayValue display magnitude unit
          plain =>
        let dependencies := analyzeDependencies expr
        let scope2 :=
          if name != "" then
            updateDependencyGraph scope1 name expr dependencies
          else scope1
        { scope := scope2,
          entries := acc.entries ++
            [{ baseEntry raw line .assignment with
                name := some name, expr := some expr, value := some value,
                display := some display, displayValue := some displayValue,
                magnitude := some magnitude, unit := some unit,
                plain := some plain }],
          visited := visited }
      | .conversion expr target value displayValue display magnitude unit
          plain =>
        let dependencies := analyzeDependencies expr
        let cacheEntry : LineCacheEntry :=
          ⟨expr, value, display, dependencies, .convert, some target⟩
        let scope2 :=
          { scope1 with lineCache := jsSet scope1.lineCache lineKey cacheEntry }
        { scope := scope2,
          entries := acc.entries ++
            [{ baseEntry raw line .convert with
                expr := some expr, target := some target, value := some value,
                display := some display, displayValue := some displayValue,
                magnitude := some magnitude, unit := some unit,
                plain := some plain }],
          visited := visited }
      | .expression expr value displayValue display magnitude unit plain =>
        let dependencies := analyzeDependencies expr
        let cacheEntry : LineCacheEntry :=
          ⟨expr, value, display, dependencies, .expression, none⟩
        let scope2 :=
          { scope1 with lineCache := jsSet scope1.lineCache lineKey cacheEntry }
        { scope := scope2,
          entries := acc.entries ++
            [{ baseEntry raw line .expression with
                expr := some expr, value := some value,
                display := some display, displayValue := some displayValue,
                magnitude := some magnitude, unit := some unit,
                plain := some plain }],
          visited := visited }

/-- The `forEach` loop, with `i0` the index of the first remaining line. -/
def runLinesFrom (st : CalcState) (blockKey : String) (i0 : Nat)
    (acc : LoopSt) : List String → LoopSt
  | [] => acc
  | raw :: rest =>
    runLinesFrom st blockKey (i0 + 1) (lineStep st blockKey acc i0 raw) rest

/-- The post-loop sweep: delete cache entries of this block whose line key
was not visited this pass. -/
def pruneLineCache (lineCache : List (String × LineCacheEntry))
    (blockKey : String) (visited : List String) :
    List (String × LineCacheEntry) :=
  lineCache.filter (fun kv =>
    !(startsWithChars kv.1.data (blockKey ++ ":").data &&
      !(visited.contains kv.1)))

structure BlockResult where
  entries : List EvaluatedLine
  scope : NoteScope
  state : CalcState
deriving DecidableEq, Repr

/-- `evaluateToEntries`.  In the source the working scope is mutated in
place and, on the persisting path, is the object stored in `this.scopes`;
here the final scope is written back into the returned state. -/
def evaluateToEntries (st : CalcState) (source : String) (filePath : String)
    (options : Option EvaluateOptions) : BlockResult :=
  let ws := resolveWorkingScope st filePath options
  let st1 := ws.2
  let blockKey := optBlockKey options filePath source
  let out := runLinesFrom st1 blockKey 0 ⟨ws.1, [], []⟩ (splitLines source)
  let finalScope :=
    { out.scope with
        lineCache := pruneLineCache out.scope.lineCache blockKey out.visited }
  let st2 :=
    if optPersist options then
      { st1 with scopes := jsSet st1.scopes filePath finalScope }
    else st1
  ⟨out.entries, finalScope, st2⟩

/-! ### `evaluateBlock` and `evaluateInline` -/

/-- The `MarkdownPostProcessorContext` fields the engine reads. -/
structure MDContext where
  sourcePath : String
  docId : Option String
deriving DecidableEq, Repr

/-- `ctx.sourcePath || "untitled"`. -/
def contextPath (ctx : MDContext) : String :=
  if ctx.sourcePath == "" then "untitled" else ctx.sourcePath

/-- `buildBlockKey`: an editor-supplied `docId` when present, else
path plus content hash. -/
def buildBlockKey (ctx : MDContext) (source : String) : String :=
  match ctx.docId with
  | some d => d
  | none => contextPath ctx ++ ":" ++ hashString source

/-- The options `evaluateBlock` passes to `evaluateToEntries`
(calcEngine.ts lines 134-138): persisting, resetting the scope exactly
when `autoRecalc` is enabled. -/
def blockEvalOptions (st : CalcState) (ctx : MDContext) (source : String) :
    EvaluateOptions :=
  { persist := some true, scope := none,
    resetScope := some st.settings.autoRecalc,
    blockKey := some (buildBlockKey ctx source) }

/-- `evaluateBlock`, up to DOM rendering: the returned entries determine
the rendered rows one-for-one. -/
def evaluateBlock (st : CalcState) (source : String) (ctx : MDContext) :
    BlockResult :=
  evaluateToEntries st source (contextPath ctx)
    (some (blockEvalOptions st ctx source))

/-- What `evaluateInline` renders into its span. -/
inductive InlineRender
  | empty
  | assign (name display : String)
  | value (display : String)
  | plain (text : String)
  | errorText (msg : String)
deriving DecidableEq, Repr

/-- `evaluateInline`: a single statement against the document's scope, all
thrown errors caught into an error span. -/
def evaluateInline (st : CalcState) (source : String) (ctx : MDContext) :
    InlineRender × CalcState :=
  let statement := jsTrim source
  if statement == "" then (.empty, st)
  else
    let filePath := contextPath ctx
    let gs := getScope st filePath
    let st1 := gs.2
    match evaluateLine st1 statement gs.1 st1.settings.defaultUnitSystem
        none with
    | .ok (result, scope1) =>
      let st2 := { st1 with scopes := jsSet st1.scopes filePath scope1 }
      match result with
      | .assignment name _ _ _ display _ _ _ =>
        (.assign name ("= " ++ display), st2)
      | .conversion _ _ _ _ display _ _ _ => (.value ("= " ++ display), st2)
      | .expression _ _ _ display _ _ _ => (.value ("= " ++ display), st2)
      | .comment _ _ => (.plain statement, st2)
    | .error msg => (.errorText ("Error: " ++ msg), st1)

/-! ### Global constant store -/

/-- `buildGlobalEvalScope`: every stored constant except `skip` (the empty
string plays the role of an omitted/falsy `skip`). -/
def buildGlobalEvalScope (st : CalcState) (skip : String) :
    List (String × Value) :=
  st.globalVars.foldl
    (fun m p =>
      if skip != "" && p.1 == skip then m else jsSet m p.1 p.2.value) []

/-- Modelled from the spec: `formatForDisplay` is invoked at
calcEngine.ts lines 371, 376 and 420 but its definition is absent from the
sources under src/ (only the call sites exist).  Spec section 4.4 gives the
display pipeline: normalize the quantity to the configured unit system,
then render magnitude/unit/display at the configured precision; for a
plain-number value normalization is the identity and rendering is
`formatValueParts`. -/
def formatForDisplay (settings : Settings) (value : Value)
    (system : UnitSystem) : FormattedValueParts :=
  formatValueParts (normalizeUnitToSystem value system) settings.sigFigs
    system false

/-- `upsertGlobalVar`: validation, evaluation against the other constants
(self excluded), then replacement of the stored entry.  `Except.error`
models the thrown error surfacing to the caller (a rejected promise);
persistence is a collaborator call outside the model. -/
def upsertGlobalVar (st : CalcState) (name source : String) :
    Except String (CalcState × GlobalVarEntry) :=
  let trimmedName := jsTrim name
  let trimmedSource := jsTrim source
  if trimmedName == "" then .error ("Name is required")
  else if !isValidIdentifier trimmedName then .error ("Invalid variable name")
  else if trimmedSource == "" then .error ("Expression is required")
  else
    let context := buildGlobalEvalScope st trimmedName
    match mathEvaluate trimmedSource (fun k => jsGet context k) with
    | .error e => .error e
    | .ok value =>
      let formatted :=
        formatForDisplay st.settings value st.settings.defaultUnitSystem
      let entry : GlobalVarEntry :=
        ⟨value, formatted.display, formatted.magnitude, formatted.unit,
          trimmedSource⟩
      .ok ({ st with globalVars := jsSet st.globalVars trimmedName entry },
        entry)

/-- The record stored for a loaded constant whose value `v` was freshly
computed (or, for an entry without a source expression, kept): display
parts are recomputed from `v`. -/
def freshLoaded (settings : Settings) (s : String) (v : Value) :
    GlobalVarEntry :=
  let f := formatForDisplay settings v settings.defaultUnitSystem
  ⟨v, f.display, f.magnitude, f.unit, s⟩

/-- The record stored when re-evaluation of the persisted source failed:
the persisted value and the last-known display parts are kept (each falling
back to a fresh rendering of the persisted value when absent). -/
def fallbackLoaded (settings : Settings) (s : String)
    (entry : PersistedGlobalVarEntry) : GlobalVarEntry :=
  let f0 := formatForDisplay settings entry.value settings.defaultUnitSystem
  ⟨entry.value, entry.display.getD f0.display,
    entry.magnitude.getD f0.magnitude, entry.unit.getD f0.unit, s⟩

/-- The value/display resolution of one `loadGlobalVars` iteration:
re-evaluate the persisted source (when present) against the constants
loaded so far, self excluded; fall back on failure. -/
def loadResolvedEntry (st : CalcState) (name : String)
    (entry : PersistedGlobalVarEntry) : GlobalVarEntry :=
  if entry.source.getD "" != "" then
    match mathEvaluate (entry.source.getD "")
        (fun k => jsGet (buildGlobalEvalScope st name) k) with
    | .ok v => freshLoaded st.settings (entry.source.getD "") v
    | .error _ => fallbackLoaded st.settings (entry.source.getD "") entry
  else freshLoaded st.settings "" entry.value

/-- One iteration of the `loadGlobalVars` loop: the resolved record is
stored; the constant is never dropped. -/
def loadGlobalEntry (st : CalcState) (name : String)
    (entry : PersistedGlobalVarEntry) : CalcState :=
  { st with
    globalVars := jsSet st.globalVars name (loadResolvedEntry st name entry) }

/-- `loadGlobalVars`: clear the store, then fold the persisted entries,
skipping falsy records. -/
def loadGlobalVars (st : CalcState)
    (entries : List (String × Option PersistedGlobalVarEntry)) : CalcState :=
  let st0 := { st with globalVars := [] }
  entries.foldl
    (fun s p =>
      match p.2 with
      | none => s
      | some e => loadGlobalEntry s p.1 e) st0

/-- `deleteGlobalVar` (idempotent). -/
def deleteGlobalVar (st : CalcState) (name : String) : CalcState :=
  let trimmedName := jsTrim name
  if jsContains st.globalVars trimmedName then
    { st with globalVars := jsDelete st.globalVars trimmedName }
  else st

/-! ### The public operation alphabet, for reachability statements -/

inductive EngineOp
  | getScopeOp (filePath : String)
  | clearScopeOp (filePath : String)
  | clearAllScopesOp
  | evaluateBlockOp (source : String) (ctx : MDContext)
  | evaluateInlineOp (source : String) (ctx : MDContext)
  | evaluateToEntriesOp (source filePath : String)
      (options : Option EvaluateOptions)
  | loadGlobalVarsOp (entries : List (String × Option PersistedGlobalVarEntry))
  | upsertGlobalVarOp (name source : String)
  | deleteGlobalVarOp (name : String)
  | configureOp (settings : Settings)
deriving DecidableEq, Repr

def applyOp (st : CalcState) : EngineOp → CalcState
  | .getScopeOp p => (getScope st p).2
  | .clearScopeOp p => clearScope st p
  | .clearAllScopesOp => clearAllScopes st
  | .evaluateBlockOp src ctx => (evaluateBlock st src ctx).state
  | .evaluateInlineOp src ctx => (evaluateInline st src ctx).2
  | .evaluateToEntriesOp src p opts => (evaluateToEntries st src p opts).state
  | .loadGlobalVarsOp es => loadGlobalVars st es
  | .upsertGlobalVarOp n s =>
    match upsertGlobalVar st n s with
    | .ok r => r.1
    | .error _ => st
  | .deleteGlobalVarOp n => deleteGlobalVar st n
  | .configureOp s => { st with settings := s }

/-- A freshly constructed engine: empty scope table, empty global store. -/
def initialCalcState (settings : Settings) : CalcState := ⟨[], [], settings⟩

def runOps (st : CalcState) (ops : List EngineOp) : CalcState :=
  ops.foldl applyOp st

/-! ## Container lemmas -/

theorem jsGet_nil {α : Type} (k : String) :
    jsGet ([] : List (String × α)) k = none := rfl

theorem jsGet_cons {α : Type} (p : String × α) (m : List (String × α))
    (k : String) :
    jsGet (p :: m) k = if p.1 == k then some p.2 else jsGet m k := by
  by_cases h : p.1 == k <;> simp [jsGet, List.find?, h]

theorem jsDelete_cons {α : Type} (p : String × α) (m : List (String × α))
    (k : String) :
    jsDelete (p :: m) k =
      if p.1 = k then jsDelete m k else p :: jsDelete m k := by
  by_cases hp : p.1 = k <;> simp [jsDelete, List.filter_cons, hp]

theorem jsGet_jsDelete_self {α : Type} (m : List (String × α)) (k : String) :
    jsGet (jsDelete m k) k = none := by
  induction m with
  | nil => rfl
  | cons p m ih =>
    rw [jsDelete_cons]
    by_cases hp : p.1 = k
    · simpa [hp] using ih
    · rw [if_neg hp, jsGet_cons, if_neg (by simpa using hp)]
      exact ih

theorem jsGet_jsDelete_other {α : Type} (m : List (String × α)) (k q : String)
    (h : q ≠ k) : jsGet (jsDelete m k) q = jsGet m q := by
  induction m with
  | nil => rfl
  | cons p m ih =>
    rw [jsDelete_cons]
    by_cases hp : p.1 = k
    · have hpq : (p.1 == q) = false := by
        simp [hp]; exact fun e => h e.symm
      rw [if_pos hp, jsGet_cons, hpq, if_neg (by simp)]
      exact ih
    · rw [if_neg hp, jsGet_cons, jsGet_cons]
      by_cases hpq : p.1 == q
      · rw [if_pos hpq, if_pos hpq]
      · rw [if_neg (by simpa using hpq), if_neg (by simpa using hpq)]
        exact ih

theorem jsSet_cons {α : Type} (p : String × α) (m : List (String × α))
    (k : String) (v : α) :
    jsSet (p :: m) k v =
      if p.1 = k then (k, v) :: m else p :: jsSet m k v := by
  by_cases hp : p.1 = k <;> simp [jsSet, hp]

theorem jsGet_jsSet_self {α : Type} (m : List (String × α)) (k : String)
    (v : α) : jsGet (jsSet m k v) k = some v := by
  induction m with
  | nil => simp [jsSet, jsGet_cons]
  | cons p m ih =>
    rw [jsSet_cons]
    by_cases hp : p.1 = k
    · rw [if_pos hp, jsGet_cons, if_pos (by simp)]
    · rw [if_neg hp, jsGet_cons, if_neg (by simpa using hp)]
      exact ih

theorem jsGet_jsSet_other {α : Type} (m : List (String × α)) (k q : String)
    (v : α) (h : q ≠ k) : jsGet (jsSet m k v) q = jsGet m q := by
  induction m with
  | nil =>
    have hkq : (k == q) = false := by simp; exact fun e => h e.symm
    simp [jsSet, jsGet_cons, hkq]
  | cons p m ih =>
    rw [jsSet_cons]
    by_cases hp : p.1 = k
    · have hkq : (k == q) = false := by simp; exact fun e => h e.symm
      have hpq : (p.1 == q) = false := by
        simp [hp]; exact fun e => h e.symm
      rw [if_pos hp, jsGet_cons, jsGet_cons, hkq, hpq]
      simp
    · rw [if_neg hp, jsGet_cons, jsGet_cons]
      by_cases hpq : p.1 == q
      · rw [if_pos hpq, if_pos hpq]
      · rw [if_neg (by simpa using hpq), if_neg (by simpa using hpq)]
        exact ih

/-- `Map.set` with the value already stored at the key is the identity. -/
theorem jsSet_same {α : Type} (m : List (String × α)) (k : String) (v : α)
    (h : jsGet m k = some v) : jsSet m k v = m := by
  induction m with
  | nil => simp [jsGet_nil] at h
  | cons p m ih =>
    obtain ⟨p1, p2⟩ := p
    rw [jsGet_cons] at h
    rw [jsSet_cons]
    by_cases hp : p1 = k
    · simp only [hp, beq_self_eq_true, if_true] at h
      obtain rfl : p2 = v := by simpa using h
      simp [hp]
    · rw [if_neg hp]
      simp only [if_neg (show ((p1, p2).1 == k) = true → False by
        simpa using hp)] at h
      rw [ih h]

/-! ## Shared concrete fixtures for witnesses and counterexamples -/

def demoSettings : Settings := ⟨false, .SI, 4, false, true⟩

def demoSettingsAuto : Settings := ⟨true, .SI, 4, false, true⟩

def xEntry : VarEntry := ⟨1, "1", "1", "", none⟩

def demoScopeX : NoteScope := { emptyNoteScope with vars := [("x", xEntry)] }

def demoStateX : CalcState := ⟨[("doc", demoScopeX)], [], demoSettings⟩

def demoStateAutoX : CalcState := ⟨[("doc", demoScopeX)], [], demoSettingsAuto⟩

def demoCtx : MDContext := ⟨"doc", some "doc"⟩

def demoOpts : Option EvaluateOptions := some ⟨some true, none, some false, some "k"⟩

/-! ## C1: scope reset versus the "auto recalculate" setting -/

/-- C1, counterexample.  The claim says that with "auto recalculate"
disabled the Note Scope is cleared before each block evaluation.  In the
code `evaluateBlock` passes `resetScope: this.plugin.settings.autoRecalc`,
so with `autoRecalc = false` nothing is cleared: evaluating the block `x`
against a scope already holding `x = 1` starts from that scope (not from an
empty one) and succeeds with value 1, which the claim asserts impossible. -/
theorem c1_counterexample :
    demoStateX.settings.autoRecalc = false ∧
    (resolveWorkingScope demoStateX "doc"
        (some (blockEvalOptions demoStateX demoCtx "x"))).1 = demoScopeX ∧
    demoScopeX ≠ emptyNoteScope ∧
    (evaluateBlock demoStateX "x" demoCtx).entries.map
        (fun e => (e.type, e.value, e.error)) =
      [(EvaluatedLineType.expression, some 1, none)] ∧
    jsGet (evaluateBlock demoStateX "x" demoCtx).scope.vars "x" =
      some xEntry := by
  refine ⟨rfl, by decide, by decide, by decide, by decide⟩

/-- C1, amended.  For every block evaluation, when "auto recalculate" is
ENABLED the Note Scope for the document is cleared (the evaluation pass
starts from a fresh empty scope); when it is DISABLED the scope is not
automatically cleared, so variables from earlier passes persist (the pass
starts from the stored scope, or a fresh one if none was stored). -/
theorem c1_amended (st : CalcState) (ctx : MDContext) (source : String) :
    (st.settings.autoRecalc = true →
      (resolveWorkingScope st (contextPath ctx)
          (some (blockEvalOptions st ctx source))).1 = emptyNoteScope) ∧
    (st.settings.autoRecalc = false →
      (resolveWorkingScope st (contextPath ctx)
          (some (blockEvalOptions st ctx source))).1 =
        (jsGet st.scopes (contextPath ctx)).getD emptyNoteScope) ∧
    evaluateBlock st source ctx =
      evaluateToEntries st source (contextPath ctx)
        (some (blockEvalOptions st ctx source)) := by
  refine ⟨?_, ?_, rfl⟩
  · intro h
    simp [resolveWorkingScope, optPersist, optResetScope, blockEvalOptions,
      clearScope, getScope, h, jsGet_jsDelete_self]
  · intro h
    simp only [resolveWorkingScope, optPersist, optResetScope,
      blockEvalOptions, getScope, h]
    simp
    cases hg : jsGet st.scopes (contextPath ctx) <;> simp [hg]

/-- Witness for the amended C1: with `autoRecalc = true` the pass starts
from the empty scope even though a scope holding `x` was stored; with
`autoRecalc = false` it starts from the stored scope. -/
theorem c1_amended_witness :
    (resolveWorkingScope demoStateAutoX (contextPath demoCtx)
        (some (blockEvalOptions demoStateAutoX demoCtx "x"))).1 =
      emptyNoteScope ∧
    (resolveWorkingScope demoStateX (contextPath demoCtx)
        (some (blockEvalOptions demoStateX demoCtx "x"))).1 =
      (jsGet demoStateX.scopes (contextPath demoCtx)).getD emptyNoteScope :=
  ⟨(c1_amended demoStateAutoX demoCtx "x").1 rfl,
   (c1_amended demoStateX demoCtx "x").2.1 rfl⟩

/-! ## String-scanning lemmas -/

theorem dropWhile_eq_self_of_length (p : Char → Bool) (l : List Char)
    (h : (l.dropWhile p).length = l.length) : l.dropWhile p = l := by
  cases l with
  | nil => rfl
  | cons c r =>
    by_cases hc : p c
    · exfalso
      have hle := length_dropWhile_le p r
      rw [List.dropWhile_cons_of_pos hc] at h
      simp only [List.length_cons] at h
      omega
    · exact List.dropWhile_cons_of_neg hc

theorem mem_dropWhile_of_not (p : Char → Bool) (l : List Char) (x : Char)
    (hx : x ∈ l) (hp : p x = false) : x ∈ l.dropWhile p := by
  induction l with
  | nil => cases hx
  | cons c r ih =>
    by_cases hc : p c
    · rw [List.dropWhile_cons_of_pos hc]
      rcases List.mem_cons.mp hx with rfl | hxr
      · rw [hc] at hp; cases hp
      · exact ih hxr
    · rwa [List.dropWhile_cons_of_neg hc]

theorem trimList_ne_nil (l : List Char) (x : Char) (hx : x ∈ l)
    (hp : wsChar x = false) : trimList l ≠ [] := by
  unfold trimList
  intro h
  have h1 : x ∈ l.dropWhile wsChar := mem_dropWhile_of_not _ _ _ hx hp
  have h2 : x ∈ (l.dropWhile wsChar).reverse := List.mem_reverse.mpr h1
  have h3 : x ∈ (l.dropWhile wsChar).reverse.dropWhile wsChar :=
    mem_dropWhile_of_not _ _ _ h2 hp
  have h4 : (l.dropWhile wsChar).reverse.dropWhile wsChar = [] := by
    have := congrArg List.reverse h
    simpa using this
  rw [h4] at h3
  cases h3

theorem trimList_length_le (l : List Char) :
    (trimList l).length ≤ (l.dropWhile wsChar).length := by
  unfold trimList
  rw [List.length_reverse]
  calc ((l.dropWhile wsChar).reverse.dropWhile wsChar).length
      ≤ (l.dropWhile wsChar).reverse.length := length_dropWhile_le _ _
    _ = (l.dropWhile wsChar).length := List.length_reverse _

theorem trimmed_head_not_ws (l : List Char) (h : trimList l = l) (c : Char)
    (hc : l.head? = some c) : wsChar c = false := by
  cases l with
  | nil => cases hc
  | cons a r =>
    have hac : a = c := by simpa using hc
    by_contra hws
    have hwsa : wsChar a = true := by
      rw [hac]; simpa using hws
    have h1 := trimList_length_le (a :: r)
    rw [List.dropWhile_cons_of_pos hwsa, h] at h1
    have h2 := length_dropWhile_le wsChar r
    simp only [List.length_cons] at h1
    omega

theorem trimmed_last_not_ws (l : List Char) (h : trimList l = l) (c : Char)
    (hc : l.getLast? = some c) : wsChar c = false := by
  have hlen := trimList_length_le l
  rw [h] at hlen
  have hd : l.dropWhile wsChar = l :=
    dropWhile_eq_self_of_length _ _
      (Nat.le_antisymm (length_dropWhile_le _ _) hlen)
  have h2 : (l.reverse.dropWhile wsChar).reverse = l := by
    have h0 := h
    unfold trimList at h0
    rw [hd] at h0
    exact h0
  have h3 : l.reverse.dropWhile wsChar = l.reverse := by
    have := congrArg List.reverse h2
    rwa [List.reverse_reverse] at this
  have hh : l.reverse.head? = some c := by
    rw [List.head?_reverse]; exact hc
  cases hrev : l.reverse with
  | nil => rw [hrev] at hh; cases hh
  | cons z w =>
    have hzc : z = c := by rw [hrev] at hh; simpa using hh
    by_contra hws
    have hwsz : wsChar z = true := by
      rw [hzc]; simpa using hws
    rw [hrev, List.dropWhile_cons_of_pos hwsz] at h3
    have h4 := length_dropWhile_le wsChar w
    have h5 := congrArg List.length h3
    simp only [List.length_cons] at h5
    omega

theorem sepAt_elim (l : List Char) (i : Nat) (h : sepAt l i = true) :
    ∃ a b c d rest, l.drop i = a :: b :: c :: d :: rest ∧ wsChar a = true ∧
      wsChar d = true := by
  unfold sepAt at h
  cases hd : l.drop i with
  | nil => rw [hd] at h; cases h
  | cons a t1 =>
    cases t1 with
    | nil => rw [hd] at h; cases h
    | cons b t2 =>
      cases t2 with
      | nil => rw [hd] at h; cases h
      | cons c t3 =>
        cases t3 with
        | nil => rw [hd] at h; cases h
        | cons d rest =>
          rw [hd] at h
          simp only [Bool.and_eq_true] at h
          exact ⟨a, b, c, d, rest, rfl, h.1.1, h.2⟩

theorem sepAt_oob (l : List Char) (i : Nat) (h : l.length ≤ i + 3) :
    sepAt l i = false := by
  have hlen : (l.drop i).length ≤ 3 := by
    rw [List.length_drop]; omega
  unfold sepAt
  cases hd : l.drop i with
  | nil => rfl
  | cons a t1 =>
    cases t1 with
    | nil => rfl
    | cons b t2 =>
      cases t2 with
      | nil => rfl
      | cons c t3 =>
        cases t3 with
        | nil => rfl
        | cons d rest =>
          exfalso
          rw [hd] at hlen
          simp only [List.length_cons] at hlen
          omega

theorem getLast_filter_range (p : Nat → Bool) :
    ∀ n i : Nat, ((List.range n).filter p).getLast? = some i →
      p i = true ∧ i < n ∧ ∀ j, i < j → j < n → p j = false := by
  intro n
  induction n with
  | zero =>
    intro i h
    rw [List.range_zero] at h
    simp at h
  | succ n ih =>
    intro i h
    rw [List.range_succ, List.filter_append] at h
    by_cases hp : p n
    · have he : List.filter p [n] = [n] := by simp [hp]
      rw [he, List.getLast?_concat] at h
      obtain rfl : n = i := by simpa using h
      refine ⟨hp, Nat.lt_succ_self _, ?_⟩
      intro j h1 h2; omega
    · have he : List.filter p [n] = [] := by simp [hp]
      rw [he, List.append_nil] at h
      obtain ⟨h1, h2, h3⟩ := ih i h
      refine ⟨h1, by omega, ?_⟩
      intro j hj1 hj2
      by_cases hjn : j = n
      · subst hjn; simpa using hp
      · exact h3 j hj1 (by omega)

theorem getLast?_drop_ne_nil :
    ∀ (n : Nat) (l : List Char), l.drop n ≠ [] →
      (l.drop n).getLast? = l.getLast? := by
  intro n
  induction n with
  | zero => intro l _; rfl
  | succ n ih =>
    intro l h
    cases l with
    | nil => simp at h
    | cons x xs =>
      rw [List.drop_succ_cons] at h ⊢
      rw [ih xs h]
      cases xs with
      | nil => simp at h
      | cons y ys => rw [List.getLast?_cons_cons]

/-- On a line free of line terminators the two captured groups of the
conversion regex are unconstrained, so a match attempt reduces to the
separator test. -/
theorem convAt_eq_sepAt (l : List Char) (hterm : l.all dotChar = true)
    (i : Nat) : convAt l i = sepAt l i := by
  unfold convAt
  have hall := List.all_eq_true.mp hterm
  have h1 : (l.take i).all dotChar = true :=
    List.all_eq_true.mpr (fun x hx => hall x (List.take_subset _ _ hx))
  have h2 : (l.drop (i + 4)).all dotChar = true :=
    List.all_eq_true.mpr (fun x hx => hall x (List.drop_subset _ _ hx))
  rw [h1, h2, Bool.and_true, Bool.and_true]

/-- On terminator-free lines `splitConvert` succeeds exactly on the lines
`isConvert` accepts. -/
theorem splitConvert_isSome (line : String)
    (hterm : line.data.all dotChar = true) :
    (splitConvert line).isSome = isConvert line := by
  unfold splitConvert isConvert
  rw [List.filter_congr (fun i _ => convAt_eq_sepAt line.data hterm i)]
  cases hg : ((List.range line.data.length).filter (sepAt line.data)).getLast?
    with
  | none =>
    have hnil := List.getLast?_eq_none_iff.mp hg
    have hany : (List.range line.data.length).any (sepAt line.data) = false := by
      rw [List.any_eq_false]
      intro x hx
      have := List.filter_eq_nil_iff.mp hnil x hx
      simpa using this
    rw [hany]; rfl
  | some i =>
    have hmem := List.mem_of_getLast?_eq_some hg
    have hsep : sepAt line.data i = true := List.of_mem_filter hmem
    have hrange : i ∈ List.range line.data.length := List.mem_of_mem_filter hmem
    have hany : (List.range line.data.length).any (sepAt line.data) = true :=
      List.any_eq_true.mpr ⟨i, hrange, hsep⟩
    rw [hany]; rfl

/-- For a trimmed line accepted by `isConvert`, `splitConvert` splits at
the LAST separator occurrence and both trimmed parts are non-empty. -/
theorem splitConvert_spec (line : String) (ht : jsTrim line = line)
    (hterm : line.data.all dotChar = true)
    (hc : isConvert line = true) :
    ∃ i, sepAt line.data i = true ∧
      (∀ j, i < j → sepAt line.data j = false) ∧
      splitConvert line =
        some (jsTrim ⟨line.data.take i⟩, jsTrim ⟨line.data.drop (i + 4)⟩) ∧
      jsTrim ⟨line.data.take i⟩ ≠ "" ∧
      jsTrim ⟨line.data.drop (i + 4)⟩ ≠ "" := by
  have hdata : trimList line.data = line.data := congrArg String.data ht
  have hfe : (List.range line.data.length).filter (convAt line.data) =
      (List.range line.data.length).filter (sepAt line.data) :=
    List.filter_congr (fun i _ => convAt_eq_sepAt line.data hterm i)
  have hsome : (splitConvert line).isSome = true := by
    rw [splitConvert_isSome line hterm, hc]
  cases hg : ((List.range line.data.length).filter (sepAt line.data)).getLast?
    with
  | none =>
    exfalso
    unfold splitConvert at hsome
    rw [hfe, hg] at hsome
    cases hsome
  | some i =>
    obtain ⟨hpi, hin, hmax⟩ := getLast_filter_range _ _ _ hg
    obtain ⟨a, b, c, d, rest, hdrop, hwa, hwd⟩ := sepAt_elim _ _ hpi
    have hlast : ∀ j, i < j → sepAt line.data j = false := by
      intro j hj
      by_cases hjn : j < line.data.length
      · exact hmax j hj hjn
      · exact sepAt_oob _ _ (by omega)
    -- the line is nonempty and its first character is not whitespace
    have hnil : line.data ≠ [] := by
      intro h0
      rw [h0] at hin
      simp at hin
    obtain ⟨c0, hhead⟩ : ∃ c0, line.data.head? = some c0 := by
      cases hld : line.data with
      | nil => exact absurd hld hnil
      | cons a2 r2 => exact ⟨a2, rfl⟩
    have hc0 : wsChar c0 = false := trimmed_head_not_ws _ hdata c0 hhead
    have hi1 : 1 ≤ i := by
      by_contra h0
      have hi0 : i = 0 := by omega
      rw [hi0, List.drop_zero] at hdrop
      have hha : line.data.head? = some a := by rw [hdrop]; rfl
      rw [hhead] at hha
      have hca : c0 = a := by simpa using hha
      rw [← hca] at hwa
      rw [hc0] at hwa
      cases hwa
    -- length bookkeeping
    have hlen4 : i + 4 ≤ line.data.length := by
      have hl := congrArg List.length hdrop
      rw [List.length_drop] at hl
      simp only [List.length_cons] at hl
      omega
    -- the last character is not whitespace
    obtain ⟨z, hz, hzw⟩ :
        ∃ z, line.data.getLast? = some z ∧ wsChar z = false := by
      obtain ⟨z, hz⟩ := Option.isSome_iff_exists.mp
        (List.getLast?_isSome.mpr hnil)
      exact ⟨z, hz, trimmed_last_not_ws _ hdata z hz⟩
    -- the separator cannot touch the end of the line
    have hstrict : i + 4 < line.data.length := by
      rcases Nat.lt_or_ge (i + 4) line.data.length with h | h
      · exact h
      · exfalso
        have hrl : rest.length = 0 := by
          have hl := congrArg List.length hdrop
          rw [List.length_drop] at hl
          simp only [List.length_cons] at hl
          omega
        have hrest : rest = [] := List.length_eq_zero.mp hrl
        have h5 : (line.data.drop i).getLast? = some d := by
          rw [hdrop, hrest]; rfl
        have h6 : (line.data.drop i).getLast? = line.data.getLast? := by
          refine getLast?_drop_ne_nil _ _ ?_
          rw [hdrop]; exact List.cons_ne_nil _ _
        rw [h5, hz] at h6
        have hdz : d = z := by simpa using h6
        rw [hdz, hzw] at hwd
        cases hwd
    -- non-emptiness of the expression part
    have he : jsTrim ⟨line.data.take i⟩ ≠ "" := by
      have hmem : c0 ∈ line.data.take i := by
        cases hld : line.data with
        | nil => exact absurd hld hnil
        | cons a2 r2 =>
          have ha2 : a2 = c0 := by
            rw [hld] at hhead
            simpa using hhead
          rw [ha2]
          cases i with
          | zero => omega
          | succ i2 =>
            rw [List.take_succ_cons]
            exact List.mem_cons_self _ _
      intro h0
      exact trimList_ne_nil _ c0 hmem hc0 (congrArg String.data h0)
    -- non-emptiness of the target part
    have htgt : jsTrim ⟨line.data.drop (i + 4)⟩ ≠ "" := by
      have hdne : line.data.drop (i + 4) ≠ [] := by
        intro h0
        have hl0 := congrArg List.length h0
        rw [List.length_drop] at hl0
        simp only [List.length_nil] at hl0
        omega
      have h6 : (line.data.drop (i + 4)).getLast? = line.data.getLast? :=
        getLast?_drop_ne_nil _ _ hdne
      rw [hz] at h6
      have hzmem : z ∈ line.data.drop (i + 4) :=
        List.mem_of_getLast?_eq_some h6
      intro h0
      exact trimList_ne_nil _ z hzmem hzw (congrArg String.data h0)
    refine ⟨i, hpi, hlast, ?_, he, htgt⟩
    unfold splitConvert
    rw [hfe, hg]

/-! ## Format lemmas (for C7) -/

theorem dropWhile_head_false (p : Char → Bool) :
    ∀ (l : List Char) (x : Char) (xs : List Char),
      l.dropWhile p = x :: xs → p x = false := by
  intro l
  induction l with
  | nil => intro x xs h; cases h
  | cons c r ih =>
    intro x xs h
    by_cases hc : p c
    · rw [List.dropWhile_cons_of_pos hc] at h
      exact ih x xs h
    · rw [List.dropWhile_cons_of_neg hc] at h
      injection h with h1 h2
      rw [← h1]
      simpa using hc

theorem reverse_append_dot (d f : List Char) :
    (d ++ '.' :: f).reverse = f.reverse ++ '.' :: d.reverse := by
  rw [List.reverse_append, List.reverse_cons, List.append_assoc]
  rfl

theorem mem_takeWhile_pred (p : Char → Bool) :
    ∀ (l : List Char) (x : Char), x ∈ l.takeWhile p → p x = true := by
  intro l
  induction l with
  | nil => intro x hx; simp [List.takeWhile] at hx
  | cons c r ih =>
    intro x hx
    by_cases hc : p c
    · rw [List.takeWhile_cons_of_pos hc] at hx
      rcases List.mem_cons.mp hx with rfl | h2
      · exact hc
      · exact ih x h2
    · rw [List.takeWhile_cons_of_neg hc] at hx
      cases hx

/-- `stripA` leaves a string alone when its last character is not zero. -/
theorem stripA_last_not_zero (l : List Char) (x : Char) (w : List Char)
    (h : l.reverse = x :: w) (hx : (x == '0') = false) : stripA l = l := by
  unfold stripA
  rw [h, List.takeWhile_cons_of_neg (by simp [hx])]
  rfl

/-- `stripB` leaves a string alone when its last character is not zero. -/
theorem stripB_last_not_zero (l : List Char) (x : Char) (w : List Char)
    (h : l.reverse = x :: w) (hx : (x == '0') = false) : stripB l = l := by
  unfold stripB
  rw [h, List.takeWhile_cons_of_neg (by simp [hx])]
  rfl

/-- `stripA` does not fire on an all-zero fractional part (no `[1-9]`
between the dot and the trailing zeros). -/
theorem stripA_all_zeros (d f : List Char) (hf : f ≠ [])
    (hz : ∀ c ∈ f, (c == '0') = true) : stripA (d ++ '.' :: f) = d ++ '.' :: f := by
  have hrevz : ∀ c ∈ f.reverse, (fun c => c == '0') c = true := by
    intro c hc
    exact hz c (List.mem_reverse.mp hc)
  have htw : (d ++ '.' :: f).reverse.takeWhile (fun c => c == '0') = f.reverse := by
    rw [reverse_append_dot, List.takeWhile_append_of_pos hrevz,
      List.takeWhile_cons_of_neg (by decide), List.append_nil]
  have hlen : f.reverse.length ≠ 0 := by
    simp only [List.length_reverse]
    intro h0
    exact hf (List.length_eq_zero.mp h0)
  have hdrop : (d ++ '.' :: f).reverse.drop f.reverse.length =
      '.' :: d.reverse := by
    rw [reverse_append_dot]
    exact List.drop_left _ _
  unfold stripA
  rw [htw, hdrop]
  have hne : (f.reverse.length == 0) = false := by
    simpa using hlen
  rw [hne]
  simp only [Bool.false_eq_true, if_false]
  have : digit19 '.' = false := by decide
  rw [this]
  simp

/-- `stripB` removes an all-zero fractional part together with its dot. -/
theorem stripB_all_zeros (d f : List Char) (hf : f ≠ [])
    (hz : ∀ c ∈ f, (c == '0') = true) : stripB (d ++ '.' :: f) = d := by
  have hrevz : ∀ c ∈ f.reverse, (fun c => c == '0') c = true := by
    intro c hc
    exact hz c (List.mem_reverse.mp hc)
  have htw : (d ++ '.' :: f).reverse.takeWhile (fun c => c == '0') = f.reverse := by
    rw [reverse_append_dot, List.takeWhile_append_of_pos hrevz,
      List.takeWhile_cons_of_neg (by decide), List.append_nil]
  have hdrop : (d ++ '.' :: f).reverse.drop f.reverse.length =
      '.' :: d.reverse := by
    rw [reverse_append_dot]
    exact List.drop_left _ _
  have hlen : f.reverse.length ≠ 0 := by
    simp only [List.length_reverse]
    intro h0
    exact hf (List.length_eq_zero.mp h0)
  unfold stripB
  rw [htw, hdrop]
  have hne : (f.reverse.length == 0) = false := by
    simpa using hlen
  rw [hne]
  simp

/-- `stripA` trims the trailing zeros of a fractional part that contains a
nonzero digit (case with at least one trailing zero). -/
theorem stripA_frac (d f : List Char) (x : Char) (rest2 : List Char)
    (hdig : ∀ c ∈ f, digitChar c = true)
    (hdw : f.reverse.dropWhile (fun c => c == '0') = x :: rest2)
    (ht0 : (f.reverse.takeWhile (fun c => c == '0')).length ≠ 0) :
    stripA (d ++ '.' :: f) = d ++ '.' :: (x :: rest2).reverse := by
  have hx0 : (x == '0') = false :=
    dropWhile_head_false (fun c => c == '0') f.reverse x rest2 hdw
  have hmemf : ∀ c ∈ x :: rest2, c ∈ f := by
    intro c hc
    have h1 : c ∈ f.reverse.dropWhile (fun c => c == '0') := by
      rw [hdw]; exact hc
    exact List.mem_reverse.mp ((List.dropWhile_sublist _).subset h1)
  have hx19 : digit19 x = true := by
    have hxd : digitChar x = true := hdig x (hmemf x (List.mem_cons_self _ _))
    have hxne : x.toNat ≠ 48 := by
      intro h48
      have h0 := congrArg Char.ofNat h48
      rw [Char.ofNat_toNat] at h0
      have hx : x = '0' := h0.trans (by decide)
      rw [hx] at hx0
      simp at hx0
    unfold digitChar at hxd
    unfold digit19
    simp only [Bool.and_eq_true, decide_eq_true_eq] at hxd ⊢
    omega
  have htwsplit : f.reverse =
      f.reverse.takeWhile (fun c => c == '0') ++ (x :: rest2) := by
    rw [← hdw, List.takeWhile_append_dropWhile]
  have htwmem : ∀ c ∈ f.reverse.takeWhile (fun c => c == '0'),
      (c == '0') = true := by
    intro c hc
    exact mem_takeWhile_pred (fun c => c == '0') f.reverse c hc
  have hcons : (x :: (rest2 ++ '.' :: d.reverse)).takeWhile
      (fun c => c == '0') = [] := by
    rw [List.takeWhile_cons_of_neg]
    simp [hx0]
  have htw : (d ++ '.' :: f).reverse.takeWhile (fun c => c == '0') =
      f.reverse.takeWhile (fun c => c == '0') := by
    rw [reverse_append_dot]
    conv_lhs => rw [htwsplit]
    rw [List.append_assoc, List.takeWhile_append_of_pos htwmem,
      List.cons_append, hcons, List.append_nil]
  have hdrop : ∀ n, n = (f.reverse.takeWhile (fun c => c == '0')).length →
      (d ++ '.' :: f).reverse.drop n = (x :: rest2) ++ '.' :: d.reverse := by
    intro n hn
    rw [reverse_append_dot]
    conv_lhs => rw [htwsplit]
    rw [List.append_assoc, hn]
    exact List.drop_left _ _
  have hrest2dig : ∀ c ∈ rest2, digitChar c = true := by
    intro c hc
    exact hdig c (hmemf c (List.mem_cons_of_mem _ hc))
  have hdwrest : (rest2 ++ '.' :: d.reverse).dropWhile digitChar =
      '.' :: d.reverse := by
    rw [List.dropWhile_append_of_pos hrest2dig,
      List.dropWhile_cons_of_neg (by decide)]
  unfold stripA
  rw [htw, hdrop ((f.reverse.takeWhile (fun c => c == '0')).length) rfl]
  have hne : ((f.reverse.takeWhile (fun c => c == '0')).length == 0) = false := by
    simpa using ht0
  rw [hne]
  simp only [Bool.false_eq_true, if_false, List.cons_append]
  rw [hx19]
  simp only [if_true]
  rw [hdwrest]
  simp [List.reverse_append, List.append_assoc]

/-- The `trimZeros` pipeline on a string of the form
`integer-part ++ "." ++ digits`: trailing zeros of the fractional part are
trimmed, and an all-zero fractional part is removed together with the
dot. -/
theorem trimZeros_frac_spec (d f : List Char) (hf : f ≠ [])
    (hdig : ∀ c ∈ f, digitChar c = true) :
    trimZeros ⟨d ++ '.' :: f⟩ =
      if dropTrailingZeros f = [] then (⟨d⟩ : String)
      else ⟨d ++ '.' :: dropTrailingZeros f⟩ := by
  have hdz : trimZeros ⟨d ++ '.' :: f⟩ = ⟨stripB (stripA (d ++ '.' :: f))⟩ := rfl
  cases hdw : f.reverse.dropWhile (fun c => c == '0') with
  | nil =>
    have hz : ∀ c ∈ f, (c == '0') = true := by
      intro c hc
      exact List.dropWhile_eq_nil_iff.mp hdw c (List.mem_reverse.mpr hc)
    have hif : dropTrailingZeros f = [] := by
      unfold dropTrailingZeros
      rw [hdw]; rfl
    rw [hdz, stripA_all_zeros d f hf hz, stripB_all_zeros d f hf hz, hif,
      if_pos rfl]
  | cons x rest2 =>
    have hx0 : (x == '0') = false :=
      dropWhile_head_false (fun c => c == '0') f.reverse x rest2 hdw
    have hdtz : dropTrailingZeros f = (x :: rest2).reverse := by
      unfold dropTrailingZeros
      rw [hdw]
    have hifn : dropTrailingZeros f ≠ [] := by
      rw [hdtz]
      simp
    have hsa : stripA (d ++ '.' :: f) = d ++ '.' :: (x :: rest2).reverse := by
      by_cases ht0 : (f.reverse.takeWhile (fun c => c == '0')).length = 0
      · -- no trailing zeros at all: stripA leaves the string unchanged
        have htwnil : f.reverse.takeWhile (fun c => c == '0') = [] :=
          List.length_eq_zero.mp ht0
        have hfx : f.reverse = x :: rest2 := by
          have h0 : f.reverse.takeWhile (fun c => c == '0') ++
              f.reverse.dropWhile (fun c => c == '0') = f.reverse :=
            List.takeWhile_append_dropWhile (fun c => c == '0') f.reverse
          rw [← h0, htwnil, hdw]
          rfl
        have hfeq : f = (x :: rest2).reverse := by
          rw [← hfx, List.reverse_reverse]
        have hlrev : (d ++ '.' :: f).reverse = x :: (rest2 ++ '.' :: d.reverse) := by
          rw [reverse_append_dot, hfx]; rfl
        rw [stripA_last_not_zero _ _ _ hlrev hx0, hfeq]
      · exact stripA_frac d f x rest2 hdig hdw ht0
    have hsb : stripB (d ++ '.' :: (x :: rest2).reverse) =
        d ++ '.' :: (x :: rest2).reverse := by
      refine stripB_last_not_zero _ x (rest2 ++ '.' :: d.reverse) ?_ hx0
      rw [reverse_append_dot, List.reverse_reverse]
      rfl
    rw [hdz, hsa, hsb, if_neg hifn, hdtz]

/-! ## C7: fixed decimal places, trailing-zero trimming -/

/-- C7: the formatted magnitude of a plain number is the fixed-point
rendering with exactly `precision` digits after the decimal point (the
"significant figures" setting counts decimal places: the integer part is
never shortened), with trailing zeros of the fractional part trimmed and an
all-zero fractional part removed entirely, so "5.0000" formats as "5".
Values are exact integers in the model, so the all-zero-fraction case is
what `formatValueParts` itself hits; the trimming behaviour is stated for
every fractional digit string. -/
theorem c7_decimal_places :
    (∀ (value : Value) (precision : Nat) (system : UnitSystem) (skip : Bool),
      (formatValueParts value precision system skip).magnitude =
        trimZeros (toFixed value precision) ∧
      (formatValueParts value precision system skip).display =
        (formatValueParts value precision system skip).magnitude) ∧
    (∀ d f : List Char, f ≠ [] → (∀ c ∈ f, digitChar c = true) →
      trimZeros ⟨d ++ '.' :: f⟩ =
        if dropTrailingZeros f = [] then (⟨d⟩ : String)
        else ⟨d ++ '.' :: dropTrailingZeros f⟩) ∧
    trimZeros "5.0000" = "5" ∧
    (∀ (value : Value) (precision : Nat) (system : UnitSystem) (skip : Bool),
      0 < precision →
      toFixed value precision =
        toString value ++ "." ++ ⟨List.replicate precision '0'⟩ ∧
      (formatValueParts value precision system skip).magnitude =
        toString value) := by
  refine ⟨fun _ _ _ _ => ⟨rfl, rfl⟩, trimZeros_frac_spec, by decide, ?_⟩
  intro value precision system skip hp
  have hfix : toFixed value precision =
      toString value ++ "." ++ ⟨List.replicate precision '0'⟩ := by
    unfold toFixed
    rw [if_neg]
    simp only [beq_iff_eq]
    omega
  refine ⟨hfix, ?_⟩
  have hdata : toString value ++ "." ++ (⟨List.replicate precision '0'⟩ : String) =
      ⟨(toString value).data ++ '.' :: List.replicate precision '0'⟩ := by
    apply String.ext
    rw [String.data_append, String.data_append]
    simp [List.append_assoc]
  have hfne : List.replicate precision '0' ≠ [] := by
    intro h0
    have := congrArg List.length h0
    simp at this
    omega
  have hfdig : ∀ c ∈ List.replicate precision '0', digitChar c = true := by
    intro c hc
    have : c = '0' := (List.mem_replicate.mp hc).2
    rw [this]
    decide
  have hdtz : dropTrailingZeros (List.replicate precision '0') = [] := by
    unfold dropTrailingZeros
    have : (List.replicate precision '0').reverse.dropWhile
        (fun c => c == '0') = [] := by
      rw [List.dropWhile_eq_nil_iff]
      intro c hc
      have : c = '0' := (List.mem_replicate.mp (List.mem_reverse.mp hc)).2
      simp [this]
    rw [this]
    rfl
  show trimZeros (toFixed value precision) = toString value
  rw [hfix, hdata,
    trimZeros_frac_spec (toString value).data (List.replicate precision '0')
      hfne hfdig, if_pos hdtz]

/-- Witness for C7: the trimming lemma at `"12.3000"` (trailing zeros
trimmed, integer part untouched) and the all-zero-fraction case at value 5
with 4 decimal places. -/
theorem c7_decimal_places_witness :
    trimZeros ⟨"12".data ++ '.' :: "3000".data⟩ =
      (if dropTrailingZeros "3000".data = [] then ("12" : String)
       else ⟨"12".data ++ '.' :: dropTrailingZeros "3000".data⟩) ∧
    (formatValueParts 5 4 UnitSystem.SI true).magnitude = toString (5 : Int) :=
  ⟨c7_decimal_places.2.1 "12".data "3000".data (by decide) (by decide),
   (c7_decimal_places.2.2.2 5 4 UnitSystem.SI true (by decide)).2⟩

/-! ## C10: the "Bad convert syntax" branch is unreachable -/

/-- On a terminator-free line the convert branch of `classifyLine` always
has a successful split, so the `convertError` class cannot arise. -/
theorem classifyLine_not_convertError (line : String)
    (hterm : line.data.all dotChar = true) :
    classifyLine line ≠ LineClass.convertError := by
  unfold classifyLine
  by_cases h1 :
      (startsWithChars line.data ['/', '/'] ||
        startsWithChars line.data ['#']) = true
  · rw [if_pos h1]; intro h; cases h
  · rw [if_neg h1]
    by_cases h2 : isAssignment line = true
    · rw [if_pos h2]; intro h; cases h
    · rw [if_neg h2]
      by_cases h3 : isConvert line = true
      · rw [if_pos h3]
        have hsome : (splitConvert line).isSome = true := by
          rw [splitConvert_isSome line hterm, h3]
        cases hs : splitConvert line with
        | none => rw [hs] at hsome; cases hsome
        | some p =>
          obtain ⟨e, t⟩ := p
          intro h; cases h
      · rw [if_neg h3]; intro h; cases h

/-- Bridge from a kernel-computable check to the `Except.error` equation. -/
theorem except_error_of_check {α : Type} (r : Except String α) (msg : String)
    (h : (match r with
      | .error m => m == msg
      | .ok _ => false) = true) : r = .error msg := by
  cases r with
  | error m =>
    have hm : m = msg := by simpa using h
    rw [hm]
  | ok v => exact Bool.noConfusion h

/-- C10 counterexample.  The claimed unreachability is false: the line
`"a\rb -> c"` carries an embedded bare carriage return, so it survives
`source.split(/\r?\n/)` as one line and `trim()` keeps it; `isConvert`
accepts it (`\s` matches the CR-independent `" -> "`), yet the match
`/^(.*)\s(?:->|to)\s(.*?)$/` is null because regex `.` cannot cross a line
terminator and no separator offset has terminator-free groups — so
`evaluateLine` does throw "Bad convert syntax. Use: expr -> unit", which
`evaluateToEntries` catches into that line's error entry. -/
theorem c10_counterexample :
    jsTrim "a\rb -> c" = "a\rb -> c" ∧
    splitLines "a\rb -> c" = ["a\rb -> c"] ∧
    isConvert "a\rb -> c" = true ∧
    splitConvert "a\rb -> c" = none ∧
    classifyLine "a\rb -> c" = LineClass.convertError ∧
    evaluateLine (initialCalcState demoSettings) "a\rb -> c"
        emptyNoteScope UnitSystem.SI none =
      .error "Bad convert syntax. Use: expr -> unit" ∧
    (evaluateToEntries (initialCalcState demoSettings) "a\rb -> c" "doc"
        demoOpts).entries.map (fun e => e.error) =
      [some "Bad convert syntax. Use: expr -> unit"] := by
  refine ⟨by decide, by decide, by decide, by decide, by decide, ?_,
    by decide⟩
  exact except_error_of_check _ _ (by decide)

/-- C10 amended: restricted to lines free of embedded line terminators
(the only lines the conversion regex's `.` can span), `splitConvert`
succeeds exactly on the lines `isConvert` accepts — hence `classifyLine`
cannot produce `convertError` for them — and on every such trimmed line
accepted by `isConvert` the split yields a non-empty expression and a
non-empty target unit.  For lines with an embedded terminator the
"Bad convert syntax" branch is reachable (see the recorded
counterexample). -/
theorem c10_amended :
    (∀ line : String, line.data.all dotChar = true →
      (splitConvert line).isSome = isConvert line ∧
      classifyLine line ≠ LineClass.convertError) ∧
    (∀ line : String, jsTrim line = line →
      line.data.all dotChar = true → isConvert line = true →
      ∃ e t, splitConvert line = some (e, t) ∧ e ≠ "" ∧ t ≠ "") := by
  constructor
  · intro line hterm
    exact ⟨splitConvert_isSome line hterm,
      classifyLine_not_convertError line hterm⟩
  · intro line ht hterm hc
    obtain ⟨i, _, _, hsplit, he, hte⟩ := splitConvert_spec line ht hterm hc
    exact ⟨_, _, hsplit, he, hte⟩

/-- Witness for the amended C10 at the terminator-free line `5 m -> ft`. -/
theorem c10_amended_witness :
    ("5 m -> ft".data.all dotChar = true ∧
      (splitConvert "5 m -> ft").isSome = isConvert "5 m -> ft" ∧
      classifyLine "5 m -> ft" ≠ LineClass.convertError) ∧
    (jsTrim "5 m -> ft" = "5 m -> ft" ∧ isConvert "5 m -> ft" = true ∧
      ∃ e t, splitConvert "5 m -> ft" = some (e, t) ∧ e ≠ "" ∧ t ≠ "") :=
  ⟨⟨by decide, (c10_amended.1 "5 m -> ft" (by decide)).1,
    (c10_amended.1 "5 m -> ft" (by decide)).2⟩,
   ⟨by decide, by decide,
    c10_amended.2 "5 m -> ft" (by decide) (by decide) (by decide)⟩⟩

/-! ## C4: conversion classification and the claimed error branch -/

/-- C4, counterexample.  The claim says a non-assignment line containing
`->` with the separator at the line start or end is classified as a
conversion and produces the error "Bad convert syntax. Use: expr -> unit".
In the code `isConvert` demands whitespace on BOTH sides of the separator,
so the trimmed lines `-> m` and `x ->` are not conversions at all: they
fall through to the plain-expression branch and the claimed error is never
produced. -/
theorem c4_counterexample :
    classifyLine "-> m" = LineClass.expression "-> m" ∧
    classifyLine "-> m" ≠ LineClass.convertError ∧
    isConvert "-> m" = false ∧
    classifyLine "x ->" = LineClass.expression "x ->" ∧
    classifyLine "x ->" ≠ LineClass.convertError ∧
    isConvert "x ->" = false := by
  refine ⟨by decide, by decide, by decide, by decide, by decide, by decide⟩

/-- C4, amended.  For every trimmed non-empty line that is not a comment,
not an assignment, and free of embedded line-terminator characters: it is
classified as a conversion exactly when it contains `->` or the word `to`
surrounded by whitespace on both sides (`isConvert`); in that case it is
split at the LAST occurrence of such a separator into a non-empty trimmed
expression and a non-empty trimmed target unit, and the "Bad convert
syntax. Use: expr -> unit" error is not produced.  A line without a
whitespace-surrounded separator (in particular one whose separator sits at
the trimmed line's start or end) is classified as a plain expression, not
the claimed error.  (On a line with an embedded terminator the error IS
reachable — see the C10 correction.) -/
theorem c4_amended (line : String) (ht : jsTrim line = line)
    (_hne : line ≠ "")
    (hterm : line.data.all dotChar = true)
    (hcm : startsWithChars line.data ['/', '/'] = false)
    (hcm2 : startsWithChars line.data ['#'] = false)
    (has : isAssignment line = false) :
    (isConvert line = true →
      ∃ i, sepAt line.data i = true ∧
        (∀ j, i < j → sepAt line.data j = false) ∧
        classifyLine line =
          LineClass.convert (jsTrim ⟨line.data.take i⟩)
            (jsTrim ⟨line.data.drop (i + 4)⟩) ∧
        jsTrim ⟨line.data.take i⟩ ≠ "" ∧
        jsTrim ⟨line.data.drop (i + 4)⟩ ≠ "") ∧
    (isConvert line = false → classifyLine line = LineClass.expression line) ∧
    classifyLine line ≠ LineClass.convertError := by
  have hguard : (startsWithChars line.data ['/', '/'] ||
      startsWithChars line.data ['#']) = false := by
    rw [hcm, hcm2]; rfl
  refine ⟨?_, ?_, classifyLine_not_convertError line hterm⟩
  · intro hc
    obtain ⟨i, hsep, hmax, hsplit, he, hte⟩ :=
      splitConvert_spec line ht hterm hc
    refine ⟨i, hsep, hmax, ?_, he, hte⟩
    unfold classifyLine
    rw [hguard, if_neg (by simp), if_neg (by simp [has]),
      if_pos hc, hsplit]
  · intro hc
    unfold classifyLine
    rw [hguard, if_neg (by simp), if_neg (by simp [has]), if_neg (by simp [hc])]

/-- Witness for the amended C4 at the line `3 to x -> y` (both separators
present; the split happens at the last one, `->`). -/
theorem c4_amended_witness :
    jsTrim "3 to x -> y" = "3 to x -> y" ∧
    isConvert "3 to x -> y" = true ∧
    (∃ i, sepAt "3 to x -> y".data i = true ∧
      (∀ j, i < j → sepAt "3 to x -> y".data j = false) ∧
      classifyLine "3 to x -> y" =
        LineClass.convert (jsTrim ⟨"3 to x -> y".data.take i⟩)
          (jsTrim ⟨"3 to x -> y".data.drop (i + 4)⟩) ∧
      jsTrim ⟨"3 to x -> y".data.take i⟩ ≠ "" ∧
      jsTrim ⟨"3 to x -> y".data.drop (i + 4)⟩ ≠ "") :=
  ⟨by decide, by decide,
    (c4_amended "3 to x -> y" (by decide) (by decide) (by decide) (by decide)
      (by decide) (by decide)).1 (by decide)⟩

/-! ## Global-store lemmas (for C6 and C8) -/

/-- Folding `buildGlobalEvalScope`'s step over entries none of which carry
the key leaves the lookup unchanged. -/
theorem buildScope_fold_untouched (skip : String)
    (l : List (String × GlobalVarEntry)) :
    ∀ (acc : List (String × Value)) (k : String), (∀ p ∈ l, p.1 ≠ k) →
      jsGet (l.foldl (fun m p =>
        if skip != "" && p.1 == skip then m else jsSet m p.1 p.2.value) acc) k =
      jsGet acc k := by
  induction l with
  | nil => intro acc k _; rfl
  | cons p l ih =>
    intro acc k hk
    have hp : p.1 ≠ k := hk p (List.mem_cons_self _ _)
    have htail : ∀ q ∈ l, q.1 ≠ k := fun q hq => hk q (List.mem_cons_of_mem _ hq)
    simp only [List.foldl_cons]
    by_cases hskip : (skip != "" && p.1 == skip) = true
    · rw [if_pos hskip]
      exact ih acc k htail
    · rw [if_neg hskip]
      rw [ih (jsSet acc p.1 p.2.value) k htail]
      exact jsGet_jsSet_other _ _ _ _ (fun h => hp h.symm)

/-- With duplicate-free keys (a JS `Map` invariant), the evaluation scope
built with `skip` excluded maps every other key to its stored value. -/
theorem buildScope_fold_get (skip : String)
    (l : List (String × GlobalVarEntry)) :
    ∀ (acc : List (String × Value)) (k : String),
      (l.map Prod.fst).Nodup → k ≠ skip → jsGet acc k = none →
      jsGet (l.foldl (fun m p =>
        if skip != "" && p.1 == skip then m else jsSet m p.1 p.2.value) acc) k =
      (jsGet l k).map (fun g => g.value) := by
  induction l with
  | nil => intro acc k _ _ hacc; simpa [jsGet_nil] using hacc
  | cons p l ih =>
    intro acc k hnd hk hacc
    have hnd2 : (l.map Prod.fst).Nodup := by
      simpa using (List.nodup_cons.mp (by simpa using hnd)).2
    have hnotin : p.1 ∉ l.map Prod.fst :=
      (List.nodup_cons.mp (by simpa using hnd)).1
    simp only [List.foldl_cons]
    by_cases hpk : p.1 = k
    · -- the head carries the key: it is set now and never touched again
      have hskip : (skip != "" && p.1 == skip) = false := by
        rw [hpk]
        simp only [Bool.and_eq_false_iff]
        right
        simp only [beq_eq_false_iff_ne]
        exact hk
      rw [hskip]
      simp only [Bool.false_eq_true, if_false]
      have htail : ∀ q ∈ l, q.1 ≠ k := by
        intro q hq hq1
        have hmem : q.1 ∈ l.map Prod.fst := List.mem_map_of_mem Prod.fst hq
        rw [hq1, ← hpk] at hmem
        exact hnotin hmem
      rw [buildScope_fold_untouched skip l (jsSet acc p.1 p.2.value) k htail]
      rw [hpk, jsGet_jsSet_self, jsGet_cons]
      rw [if_pos (by simpa using hpk)]
      rfl
    · have hjs : jsGet (p :: l) k = jsGet l k := by
        rw [jsGet_cons, if_neg (by simpa using hpk)]
      rw [hjs]
      by_cases hskip : (skip != "" && p.1 == skip) = true
      · rw [if_pos hskip]
        exact ih acc k hnd2 hk hacc
      · rw [if_neg hskip]
        refine ih (jsSet acc p.1 p.2.value) k hnd2 hk ?_
        rw [jsGet_jsSet_other _ _ _ _ (fun h => hpk h.symm)]
        exact hacc

/-- The self-excluded binding never contains the skipped name. -/
theorem buildGlobalEvalScope_skip (st : CalcState) (skip : String)
    (h : skip ≠ "") : jsGet (buildGlobalEvalScope st skip) skip = none := by
  unfold buildGlobalEvalScope
  have : ∀ (l : List (String × GlobalVarEntry)) (acc : List (String × Value)),
      jsGet acc skip = none →
      jsGet (l.foldl (fun m p =>
        if skip != "" && p.1 == skip then m else jsSet m p.1 p.2.value) acc)
        skip = none := by
    intro l
    induction l with
    | nil => intro acc hacc; exact hacc
    | cons p l ih =>
      intro acc hacc
      simp only [List.foldl_cons]
      by_cases hp : p.1 = skip
      · rw [if_pos (by simp [hp, h])]
        exact ih acc hacc
      · by_cases hskip : (skip != "" && p.1 == skip) = true
        · rw [if_pos hskip]
          exact ih acc hacc
        · rw [if_neg hskip]
          refine ih (jsSet acc p.1 p.2.value) ?_
          rw [jsGet_jsSet_other _ _ _ _ (fun hq => hp hq.symm)]
          exact hacc
  exact this st.globalVars [] rfl

/-- The self-excluded binding contains every other stored constant. -/
theorem buildGlobalEvalScope_other (st : CalcState) (skip k : String)
    (hnd : (st.globalVars.map Prod.fst).Nodup) (hk : k ≠ skip) :
    jsGet (buildGlobalEvalScope st skip) k =
      (jsGet st.globalVars k).map (fun g => g.value) := by
  unfold buildGlobalEvalScope
  exact buildScope_fold_get skip st.globalVars [] k hnd hk rfl

/-! ## C6: `upsertGlobalVar` validation and self-exclusion -/

/-- The entry `upsertGlobalVar` stores on success. -/
def upsertEntry (st : CalcState) (trimmedSource : String) (v : Value) :
    GlobalVarEntry :=
  let formatted := formatForDisplay st.settings v st.settings.defaultUnitSystem
  ⟨v, formatted.display, formatted.magnitude, formatted.unit, trimmedSource⟩

/-- The state-and-entry pair a successful upsert produces. -/
def upsertSuccess (st : CalcState) (trimmedName trimmedSource : String)
    (v : Value) : CalcState × GlobalVarEntry :=
  let entry := upsertEntry st trimmedSource v
  ({ st with globalVars := jsSet st.globalVars trimmedName entry }, entry)

/-- Evaluating `g + 1` against a binding with no `g` fails with mathjs's
undefined-symbol error. -/
theorem mathEvaluate_g_plus_1 (env : String → Option Value)
    (h : env "g" = none) :
    mathEvaluate "g + 1" env = .error ("Undefined symbol g") := by
  unfold mathEvaluate
  rw [show mathParse "g + 1" =
      some (MathExpr.add (MathExpr.sym "g") (MathExpr.num 1)) from by decide]
  simp only [mathEvalExpr]
  rw [h]
  rfl

/-- C6: `upsertGlobalVar` rejects an empty trimmed name, an illegal
identifier and an empty trimmed expression with the exact messages of the
source; otherwise it evaluates the trimmed expression against a binding
that contains every stored constant except `name` itself and, on success,
replaces the stored entry for the trimmed name.  In particular
`upsertGlobalVar st "g" "g + 1"` always fails with an undefined-symbol
error, whatever is stored for `g`. -/
theorem c6_upsertGlobalVar (st : CalcState) (name source : String)
    (hnd : (st.globalVars.map Prod.fst).Nodup) :
    (jsTrim name = "" →
      upsertGlobalVar st name source = .error ("Name is required")) ∧
    (jsTrim name ≠ "" → isValidIdentifier (jsTrim name) = false →
      upsertGlobalVar st name source = .error ("Invalid variable name")) ∧
    (jsTrim name ≠ "" → isValidIdentifier (jsTrim name) = true →
      jsTrim source = "" →
      upsertGlobalVar st name source = .error ("Expression is required")) ∧
    (jsTrim name ≠ "" →
      jsGet (buildGlobalEvalScope st (jsTrim name)) (jsTrim name) = none) ∧
    (∀ k, k ≠ jsTrim name →
      jsGet (buildGlobalEvalScope st (jsTrim name)) k =
        (jsGet st.globalVars k).map (fun g => g.value)) ∧
    (jsTrim name ≠ "" → isValidIdentifier (jsTrim name) = true →
      jsTrim source ≠ "" →
      upsertGlobalVar st name source =
        (mathEvaluate (jsTrim source)
            (fun k => jsGet (buildGlobalEvalScope st (jsTrim name)) k)).map
          (upsertSuccess st (jsTrim name) (jsTrim source)) ∧
      (∀ v, mathEvaluate (jsTrim source)
          (fun k => jsGet (buildGlobalEvalScope st (jsTrim name)) k) = .ok v →
        ∀ st2 entry, upsertGlobalVar st name source = .ok (st2, entry) →
          jsGet st2.globalVars (jsTrim name) = some entry)) ∧
    upsertGlobalVar st "g" "g + 1" = .error ("Undefined symbol g") := by
  refine ⟨?_, ?_, ?_, ?_, ?_, ?_, ?_⟩
  · intro h
    unfold upsertGlobalVar
    rw [if_pos (by simp [h])]
  · intro h hv
    unfold upsertGlobalVar
    rw [if_neg (by simpa using h), if_pos (by simp [hv])]
  · intro h hv hs
    unfold upsertGlobalVar
    rw [if_neg (by simpa using h), if_neg (by simp [hv]),
      if_pos (by simp [hs])]
  · intro h
    exact buildGlobalEvalScope_skip st (jsTrim name) h
  · intro k hk
    exact buildGlobalEvalScope_other st (jsTrim name) k hnd hk
  · intro h hv hs
    constructor
    · unfold upsertGlobalVar
      rw [if_neg (by simpa using h), if_neg (by simp [hv]),
        if_neg (by simpa using hs)]
      show (match mathEvaluate (jsTrim source)
          (fun k => jsGet (buildGlobalEvalScope st (jsTrim name)) k) with
        | Except.error e => (Except.error e :
            Except String (CalcState × GlobalVarEntry))
        | Except.ok value =>
          Except.ok (upsertSuccess st (jsTrim name) (jsTrim source) value)) =
        (mathEvaluate (jsTrim source)
            (fun k => jsGet (buildGlobalEvalScope st (jsTrim name)) k)).map
          (upsertSuccess st (jsTrim name) (jsTrim source))
      cases hev : mathEvaluate (jsTrim source)
          (fun k => jsGet (buildGlobalEvalScope st (jsTrim name)) k) with
      | error e => rfl
      | ok v => rfl
    · intro v hev st2 entry hok
      have hok2 : (match mathEvaluate (jsTrim source)
          (fun k => jsGet (buildGlobalEvalScope st (jsTrim name)) k) with
        | Except.error e => (Except.error e :
            Except String (CalcState × GlobalVarEntry))
        | Except.ok value =>
          Except.ok (upsertSuccess st (jsTrim name) (jsTrim source) value)) =
          Except.ok (st2, entry) := by
        rw [← hok]
        unfold upsertGlobalVar
        rw [if_neg (by simpa using h), if_neg (by simp [hv]),
          if_neg (by simpa using hs)]
        rfl
      rw [hev] at hok2
      have hpair : upsertSuccess st (jsTrim name) (jsTrim source) v =
          (st2, entry) := by
        simpa using hok2
      have h1 := congrArg Prod.fst hpair
      have h2 := congrArg Prod.snd hpair
      simp only [upsertSuccess] at h1 h2
      rw [← h1, ← h2]
      exact jsGet_jsSet_self _ _ _
  · have hg : jsGet (buildGlobalEvalScope st "g") "g" = none :=
      buildGlobalEvalScope_skip st "g" (by decide)
    have hparse2 : mathEvaluate (jsTrim "g + 1")
        (fun k => jsGet (buildGlobalEvalScope st (jsTrim "g")) k) =
        .error ("Undefined symbol g") := by
      rw [show jsTrim "g + 1" = "g + 1" from by decide,
        show jsTrim "g" = "g" from by decide]
      exact mathEvaluate_g_plus_1 _ hg
    unfold upsertGlobalVar
    rw [if_neg (by decide), if_neg (by decide), if_neg (by decide)]
    show (match mathEvaluate (jsTrim "g + 1")
        (fun k => jsGet (buildGlobalEvalScope st (jsTrim "g")) k) with
      | Except.error e => (Except.error e :
          Except String (CalcState × GlobalVarEntry))
      | Except.ok value =>
        Except.ok (upsertSuccess st (jsTrim "g") (jsTrim "g + 1") value)) =
      .error ("Undefined symbol g")
    rw [hparse2]

/-- Witness for C6: validation failures, the `g + 1` self-reference
failure, and a successful upsert that replaces the stored entry. -/
theorem c6_upsertGlobalVar_witness :
    (upsertGlobalVar demoStateX " " "1 + 2" = .error ("Name is required")) ∧
    (upsertGlobalVar demoStateX "2x" "1 + 2" =
      .error ("Invalid variable name")) ∧
    (upsertGlobalVar demoStateX "x" "  " = .error ("Expression is required")) ∧
    (upsertGlobalVar demoStateX "g" "g + 1" =
      .error ("Undefined symbol g")) := by
  have h := c6_upsertGlobalVar demoStateX " " "1 + 2" (by decide)
  have h2 := c6_upsertGlobalVar demoStateX "2x" "1 + 2" (by decide)
  have h3 := c6_upsertGlobalVar demoStateX "x" "  " (by decide)
  exact ⟨h.1 (by decide), h2.2.1 (by decide) (by decide),
    h3.2.2.1 (by decide) (by decide) (by decide), h.2.2.2.2.2.2⟩

/-! ## Frame and congruence lemmas for block evaluation -/

/-- The evaluation binding depends on the engine state only through the
global store and the settings. -/
theorem evalEnv_congr (st st2 : CalcState) (scope : NoteScope)
    (hg : st.globalVars = st2.globalVars) (hs : st.settings = st2.settings) :
    evalEnv st scope = evalEnv st2 scope := by
  funext k
  unfold evalEnv
  rw [hg, hs]

/-- `evaluateLine` depends on the engine state only through the global
store and the settings. -/
theorem evaluateLine_congr (st st2 : CalcState)
    (hg : st.globalVars = st2.globalVars) (hs : st.settings = st2.settings) :
    ∀ (line : String) (scope : NoteScope) (system : UnitSystem)
      (srcl : Option String),
      evaluateLine st line scope system srcl =
        evaluateLine st2 line scope system srcl := by
  intro line scope system srcl
  unfold evaluateLine evalExpression
  rw [evalEnv_congr st st2 scope hg hs, hs]

/-- The loop body depends on the engine state only through the global
store and the settings. -/
theorem lineStep_congr (st st2 : CalcState)
    (hg : st.globalVars = st2.globalVars) (hs : st.settings = st2.settings)
    (bk : String) (acc : LoopSt) (i : Nat) (raw : String) :
    lineStep st bk acc i raw = lineStep st2 bk acc i raw := by
  simp only [lineStep]
  rw [hs, evaluateLine_congr st st2 hg hs]

theorem runLinesFrom_congr (st st2 : CalcState)
    (hg : st.globalVars = st2.globalVars) (hs : st.settings = st2.settings)
    (bk : String) :
    ∀ (ls : List String) (i : Nat) (acc : LoopSt),
      runLinesFrom st bk i acc ls = runLinesFrom st2 bk i acc ls := by
  intro ls
  induction ls with
  | nil => intro i acc; rfl
  | cons raw rest ih =>
    intro i acc
    show runLinesFrom st bk (i + 1) (lineStep st bk acc i raw) rest =
      runLinesFrom st2 bk (i + 1) (lineStep st2 bk acc i raw) rest
    rw [lineStep_congr st st2 hg hs bk acc i raw, ih]

/-- The working scope `getScope` hands back is the stored one, or a fresh
empty scope when the path has none yet. -/
theorem getScope_fst (st : CalcState) (p : String) :
    (getScope st p).1 = (jsGet st.scopes p).getD emptyNoteScope := by
  unfold getScope
  cases jsGet st.scopes p <;> rfl

/-- `getScope` keeps the global store and the settings, and touches no
stored scope other than the requested path's. -/
theorem getScope_state (st : CalcState) (p : String) :
    (getScope st p).2.globalVars = st.globalVars ∧
    (getScope st p).2.settings = st.settings ∧
    ∀ q, q ≠ p →
      jsGet (getScope st p).2.scopes q = jsGet st.scopes q := by
  unfold getScope
  cases jsGet st.scopes p with
  | some s => exact ⟨rfl, rfl, fun q hq => rfl⟩
  | none => exact ⟨rfl, rfl, fun q hq => jsGet_jsSet_other _ _ _ _ hq⟩

/-- The chosen working scope depends on the state only through the stored
scope of the evaluated path. -/
theorem resolveWorkingScope_congr (st st2 : CalcState) (p : String)
    (opts : Option EvaluateOptions)
    (h : jsGet st.scopes p = jsGet st2.scopes p) :
    (resolveWorkingScope st p opts).1 = (resolveWorkingScope st2 p opts).1 := by
  unfold resolveWorkingScope
  by_cases hp : optPersist opts
  · rw [if_pos hp, if_pos hp]
    by_cases hr : optResetScope opts
    · rw [if_pos hr, if_pos hr]
      show (getScope (clearScope st p) p).1 = (getScope (clearScope st2 p) p).1
      rw [getScope_fst, getScope_fst]
      show (jsGet (jsDelete st.scopes p) p).getD emptyNoteScope =
        (jsGet (jsDelete st2.scopes p) p).getD emptyNoteScope
      rw [jsGet_jsDelete_self, jsGet_jsDelete_self]
    · rw [if_neg hr, if_neg hr]
      show (getScope st p).1 = (getScope st2 p).1
      rw [getScope_fst, getScope_fst, h]
  · rw [if_neg hp, if_neg hp]
    cases opts.bind (fun o => o.scope) <;> rfl

/-- `resolveWorkingScope` keeps the global store and the settings, and
touches no stored scope other than the evaluated path's. -/
theorem resolveWorkingScope_state (st : CalcState) (p : String)
    (opts : Option EvaluateOptions) :
    (resolveWorkingScope st p opts).2.globalVars = st.globalVars ∧
    (resolveWorkingScope st p opts).2.settings = st.settings ∧
    ∀ q, q ≠ p →
      jsGet (resolveWorkingScope st p opts).2.scopes q =
        jsGet st.scopes q := by
  unfold resolveWorkingScope
  by_cases hp : optPersist opts
  · rw [if_pos hp]
    by_cases hr : optResetScope opts
    · rw [if_pos hr]
      refine ⟨(getScope_state (clearScope st p) p).1,
        (getScope_state (clearScope st p) p).2.1, ?_⟩
      intro q hq
      show jsGet (getScope (clearScope st p) p).2.scopes q = jsGet st.scopes q
      rw [(getScope_state (clearScope st p) p).2.2 q hq]
      exact jsGet_jsDelete_other st.scopes p q hq
    · rw [if_neg hr]
      exact ⟨(getScope_state st p).1, (getScope_state st p).2.1,
        fun q hq => (getScope_state st p).2.2 q hq⟩
  · rw [if_neg hp]
    cases opts.bind (fun o => o.scope) <;>
      exact ⟨rfl, rfl, fun q hq => rfl⟩

/-- The loop output of a block evaluation, named for reasoning. -/
def blockOut (st : CalcState) (source filePath : String)
    (options : Option EvaluateOptions) : LoopSt :=
  runLinesFrom (resolveWorkingScope st filePath options).2
    (optBlockKey options filePath source) 0
    ⟨(resolveWorkingScope st filePath options).1, [], []⟩
    (splitLines source)

/-- The final working scope of a block evaluation, after the line-cache
sweep. -/
def blockFinalScope (st : CalcState) (source filePath : String)
    (options : Option EvaluateOptions) : NoteScope :=
  { (blockOut st source filePath options).scope with
      lineCache := pruneLineCache
        (blockOut st source filePath options).scope.lineCache
        (optBlockKey options filePath source)
        (blockOut st source filePath options).visited }

/-- `evaluateToEntries`, unfolded into its named stages. -/
theorem evaluateToEntries_eq (st : CalcState) (source filePath : String)
    (options : Option EvaluateOptions) :
    evaluateToEntries st source filePath options =
      ⟨(blockOut st source filePath options).entries,
       blockFinalScope st source filePath options,
       if optPersist options then
         { (resolveWorkingScope st filePath options).2 with
             scopes := jsSet (resolveWorkingScope st filePath options).2.scopes
               filePath (blockFinalScope st source filePath options) }
       else (resolveWorkingScope st filePath options).2⟩ := rfl

/-- Block evaluation leaves the global store and the settings untouched,
and touches no stored scope other than the evaluated path's. -/
theorem evaluateToEntries_state_frame (st : CalcState) (src p : String)
    (opts : Option EvaluateOptions) :
    (evaluateToEntries st src p opts).state.globalVars = st.globalVars ∧
    (evaluateToEntries st src p opts).state.settings = st.settings ∧
    ∀ q, q ≠ p →
      jsGet (evaluateToEntries st src p opts).state.scopes q =
        jsGet st.scopes q := by
  have hres := resolveWorkingScope_state st p opts
  refine ⟨?_, ?_, ?_⟩
  · rw [evaluateToEntries_eq]
    by_cases hp : optPersist opts
    · rw [if_pos hp]; exact hres.1
    · rw [if_neg hp]; exact hres.1
  · rw [evaluateToEntries_eq]
    by_cases hp : optPersist opts
    · rw [if_pos hp]; exact hres.2.1
    · rw [if_neg hp]; exact hres.2.1
  · intro q hq
    rw [evaluateToEntries_eq]
    by_cases hp : optPersist opts
    · rw [if_pos hp]
      show jsGet (jsSet (resolveWorkingScope st p opts).2.scopes p
        (blockFinalScope st src p opts)) q = jsGet st.scopes q
      rw [jsGet_jsSet_other _ _ _ _ hq]
      exact hres.2.2 q hq
    · rw [if_neg hp]
      exact hres.2.2 q hq

/-- Block evaluation results depend on the state only through the stored
scope of the evaluated path, the global store, and the settings. -/
theorem evaluateToEntries_congr (st st2 : CalcState) (src q : String)
    (opts : Option EvaluateOptions)
    (h1 : jsGet st.scopes q = jsGet st2.scopes q)
    (hg : st.globalVars = st2.globalVars)
    (hs : st.settings = st2.settings) :
    (evaluateToEntries st src q opts).entries =
      (evaluateToEntries st2 src q opts).entries ∧
    (evaluateToEntries st src q opts).scope =
      (evaluateToEntries st2 src q opts).scope := by
  have hws := resolveWorkingScope_congr st st2 q opts h1
  have hst1 : (resolveWorkingScope st q opts).2.globalVars =
      (resolveWorkingScope st2 q opts).2.globalVars := by
    rw [(resolveWorkingScope_state st q opts).1,
      (resolveWorkingScope_state st2 q opts).1, hg]
  have hst2 : (resolveWorkingScope st q opts).2.settings =
      (resolveWorkingScope st2 q opts).2.settings := by
    rw [(resolveWorkingScope_state st q opts).2.1,
      (resolveWorkingScope_state st2 q opts).2.1, hs]
  have hout : blockOut st src q opts = blockOut st2 src q opts := by
    unfold blockOut
    rw [hws, runLinesFrom_congr _ _ hst1 hst2]
  have hfs : blockFinalScope st src q opts = blockFinalScope st2 src q opts := by
    unfold blockFinalScope
    rw [hout]
  constructor
  · rw [evaluateToEntries_eq, evaluateToEntries_eq]
    show (blockOut st src q opts).entries = (blockOut st2 src q opts).entries
    rw [hout]
  · rw [evaluateToEntries_eq, evaluateToEntries_eq]
    show blockFinalScope st src q opts = blockFinalScope st2 src q opts
    exact hfs

/-! ## C8: loading persisted constants never drops an entry -/

theorem jsContains_jsSet_self {α : Type} (m : List (String × α)) (k : String)
    (v : α) : jsContains (jsSet m k v) k = true := by
  unfold jsContains
  rw [jsGet_jsSet_self]
  rfl

theorem jsContains_jsSet_mono {α : Type} (m : List (String × α)) (k q : String)
    (v : α) (h : jsContains m q = true) :
    jsContains (jsSet m k v) q = true := by
  by_cases hk : q = k
  · rw [hk]; exact jsContains_jsSet_self _ _ _
  · unfold jsContains at h ⊢
    rw [jsGet_jsSet_other _ _ _ _ hk]
    exact h

/-- Containment survives the rest of the load loop. -/
theorem loadGlobalVars_fold_mono
    (l : List (String × Option PersistedGlobalVarEntry)) :
    ∀ (acc : CalcState) (name : String),
      jsContains acc.globalVars name = true →
      jsContains ((l.foldl (fun s p =>
        match p.2 with
        | none => s
        | some e => loadGlobalEntry s p.1 e) acc)).globalVars name = true := by
  induction l with
  | nil => intro acc name h; exact h
  | cons p l ih =>
    intro acc name h
    simp only [List.foldl_cons]
    cases hp : p.2 with
    | none => exact ih acc name h
    | some e =>
      refine ih _ name ?_
      unfold loadGlobalEntry
      exact jsContains_jsSet_mono _ _ _ _ h

/-- Every persisted record present in the remaining load list ends up
stored, whatever the accumulator. -/
theorem loadGlobalVars_fold_contains
    (l : List (String × Option PersistedGlobalVarEntry)) :
    ∀ (acc : CalcState) (name : String) (e : PersistedGlobalVarEntry),
      (name, some e) ∈ l →
      jsContains ((l.foldl (fun s p =>
        match p.2 with
        | none => s
        | some e2 => loadGlobalEntry s p.1 e2) acc)).globalVars name = true := by
  induction l with
  | nil => intro acc name e h; cases h
  | cons p l ih =>
    intro acc name e hmem
    simp only [List.foldl_cons]
    rcases List.mem_cons.mp hmem with heq | hmem2
    · subst heq
      exact loadGlobalVars_fold_mono l _ name
        (jsContains_jsSet_self _ _ _)
    · cases hp : p.2 with
      | none => exact ih acc name e hmem2
      | some e2 => exact ih _ name e hmem2

/-- C8: loading persisted global constants is total and never drops an
entry: every persisted record (however its re-evaluation fares) ends up
stored.  On re-evaluation failure the persisted value is kept together with
the last-known display parts; on success the freshly computed value and
display are stored. -/
theorem c8_loadGlobalVars :
    (∀ (st : CalcState)
        (entries : List (String × Option PersistedGlobalVarEntry))
        (name : String) (e : PersistedGlobalVarEntry),
      (name, some e) ∈ entries →
      jsContains (loadGlobalVars st entries).globalVars name = true) ∧
    (∀ (acc : CalcState) (name : String) (e : PersistedGlobalVarEntry)
        (s : String), e.source = some s → s ≠ "" →
      (∀ msg, mathEvaluate s
          (fun k => jsGet (buildGlobalEvalScope acc name) k) = .error msg →
        loadGlobalEntry acc name e =
          { acc with
            globalVars := jsSet acc.globalVars name (fallbackLoaded acc.settings s e) } ∧
        (fallbackLoaded acc.settings s e).value = e.value) ∧
      (∀ v, mathEvaluate s
          (fun k => jsGet (buildGlobalEvalScope acc name) k) = .ok v →
        loadGlobalEntry acc name e =
          { acc with
            globalVars := jsSet acc.globalVars name (freshLoaded acc.settings s v) })) := by
  constructor
  · intro st entries name e hmem
    exact loadGlobalVars_fold_contains entries
      { st with globalVars := [] } name e hmem
  · intro acc name e s hsrc hs
    have hgetd : e.source.getD "" = s := by rw [hsrc]; rfl
    have hcond : (e.source.getD "" != "") = true := by
      rw [hgetd]
      simpa using hs
    constructor
    · intro msg hmsg
      refine ⟨?_, rfl⟩
      unfold loadGlobalEntry loadResolvedEntry
      rw [hcond]
      simp only [if_true]
      rw [hgetd, hmsg]
    · intro v hv
      unfold loadGlobalEntry loadResolvedEntry
      rw [hcond]
      simp only [if_true]
      rw [hgetd, hv]

/-- A persisted constant whose source no longer evaluates (it references
the undefined `qq`). -/
def persistedA : PersistedGlobalVarEntry :=
  ⟨7, some "7", some "7", some "", some "qq + 1"⟩

def demoPersisted : List (String × Option PersistedGlobalVarEntry) :=
  [("a", some persistedA), ("b", none),
   ("c", some ⟨3, none, none, none, some "1 + 2"⟩)]

/-- Witness for C8: the failing entry `a` is still stored after a load, and
its stored record keeps the persisted value 7 with the last-known display. -/
theorem c8_loadGlobalVars_witness :
    jsContains (loadGlobalVars (initialCalcState demoSettings)
      demoPersisted).globalVars "a" = true ∧
    (loadGlobalEntry (initialCalcState demoSettings) "a" persistedA =
      { initialCalcState demoSettings with
        globalVars := jsSet (initialCalcState demoSettings).globalVars "a" (fallbackLoaded demoSettings "qq + 1" persistedA) } ∧
      (fallbackLoaded demoSettings "qq + 1" persistedA).value =
        persistedA.value) :=
  ⟨c8_loadGlobalVars.1 (initialCalcState demoSettings) demoPersisted "a"
      persistedA (by decide),
   (c8_loadGlobalVars.2 (initialCalcState demoSettings) "a" persistedA
      "qq + 1" rfl (by decide)).1 ("Undefined symbol qq") rfl⟩

/-! ## C5: mutual consistency of the dependency maps -/

theorem contains_iff (s : List String) (a : String) :
    s.contains a = true ↔ a ∈ s := by
  induction s with
  | nil => simp [List.contains]
  | cons x r ih => simp [List.contains_cons, ih, beq_iff_eq]

theorem mem_jsAdd (s : List String) (k a : String) :
    a ∈ jsAdd s k ↔ a = k ∨ a ∈ s := by
  unfold jsAdd
  by_cases h : s.contains k
  · rw [if_pos h]
    have hk : k ∈ s := (contains_iff s k).1 h
    constructor
    · exact Or.inr
    · rintro (rfl | ha)
      · exact hk
      · exact ha
  · rw [if_neg h]
    simp [or_comm]

theorem mem_jsSetDelete (s : List String) (k a : String) :
    a ∈ jsSetDelete s k ↔ a ∈ s ∧ a ≠ k := by
  simp [jsSetDelete, List.mem_filter, bne_iff_ne]

theorem jsSetDelete_isEmpty_mem (s : List String) (k a : String)
    (he : (jsSetDelete s k).isEmpty = true) (ha : a ∈ s) : a = k := by
  by_contra hne
  have : a ∈ jsSetDelete s k := (mem_jsSetDelete s k a).2 ⟨ha, hne⟩
  rw [List.isEmpty_iff] at he
  rw [he] at this
  exact List.not_mem_nil a this

/-- `a` is recorded in the list stored under key `b` (dependents: `a`
depends on `b`; dependencies: the list of what `b`'s formula reads). -/
def depMem (m : List (String × List String)) (b a : String) : Prop :=
  a ∈ (jsGet m b).getD []

/-- The C5 invariant: `a ∈ dependents[b]` exactly when
`b ∈ dependencies[a]`. -/
def depConsistent (scope : NoteScope) : Prop :=
  ∀ a b : String,
    depMem scope.dependents b a ↔ depMem scope.dependencies a b

theorem depConsistent_empty : depConsistent emptyNoteScope := by
  intro a b
  simp [depMem, jsGet, emptyNoteScope]

/-- The reverse-edge pruning step of `updateDependencyGraph` (the first
`foldl` over the previous dependency list). -/
def depRemoveStep (deps : List String) (name : String)
    (m : List (String × List String)) (dep : String) :
    List (String × List String) :=
  if !(deps.contains dep) then
    match jsGet m dep with
    | some ds =>
      if (jsSetDelete ds name).isEmpty then jsDelete m dep
      else jsSet m dep (jsSetDelete ds name)
    | none => m
  else m

/-- The reverse-edge insertion step of `updateDependencyGraph` (the second
`foldl`, over the new dependency list). -/
def depAddStep (name : String)
    (m : List (String × List String)) (dep : String) :
    List (String × List String) :=
  jsSet m dep (jsAdd ((jsGet m dep).getD []) name)

/-- `updateDependencyGraph`, unfolded into its named stages. -/
theorem updateDependencyGraph_eq (scope : NoteScope) (name expr : String)
    (deps : List String) :
    updateDependencyGraph scope name expr deps =
      { scope with
        dependents := deps.foldl (depAddStep name)
          (match jsGet scope.dependencies name with
           | some prev => prev.foldl (depRemoveStep deps name) scope.dependents
           | none => scope.dependents),
        dependencies := jsSet scope.dependencies name deps,
        formulas := jsSet scope.formulas name expr } := rfl

theorem depMem_addStep_name (name : String)
    (m : List (String × List String)) (dep b : String) :
    depMem (depAddStep name m dep) b name ↔ (b = dep ∨ depMem m b name) := by
  unfold depAddStep depMem
  by_cases hb : b = dep
  · subst hb
    rw [jsGet_jsSet_self]
    simp only [Option.getD_some]
    rw [mem_jsAdd]
    simp
  · rw [jsGet_jsSet_other _ _ _ _ hb]
    simp [hb]

theorem depMem_addStep_other (name a : String) (ha : a ≠ name)
    (m : List (String × List String)) (dep b : String) :
    depMem (depAddStep name m dep) b a ↔ depMem m b a := by
  unfold depAddStep depMem
  by_cases hb : b = dep
  · subst hb
    rw [jsGet_jsSet_self]
    simp only [Option.getD_some]
    rw [mem_jsAdd]
    simp [ha]
  · rw [jsGet_jsSet_other _ _ _ _ hb]

theorem depMem_addFold_name (name : String) :
    ∀ (l : List String) (m : List (String × List String)) (b : String),
      depMem (l.foldl (depAddStep name) m) b name ↔
        (b ∈ l ∨ depMem m b name) := by
  intro l
  induction l with
  | nil => intro m b; simp
  | cons dep rest ih =>
    intro m b
    show depMem (rest.foldl (depAddStep name) (depAddStep name m dep)) b
      name ↔ _
    rw [ih, depMem_addStep_name]
    constructor
    · rintro (h | rfl | h)
      · exact Or.inl (List.mem_cons_of_mem _ h)
      · exact Or.inl (List.mem_cons_self _ _)
      · exact Or.inr h
    · rintro (h | h)
      · rcases List.mem_cons.1 h with rfl | h2
        · exact Or.inr (Or.inl rfl)
        · exact Or.inl h2
      · exact Or.inr (Or.inr h)

theorem depMem_addFold_other (name a : String) (ha : a ≠ name) :
    ∀ (l : List String) (m : List (String × List String)) (b : String),
      depMem (l.foldl (depAddStep name) m) b a ↔ depMem m b a := by
  intro l
  induction l with
  | nil => intro m b; exact Iff.rfl
  | cons dep rest ih =>
    intro m b
    show depMem (rest.foldl (depAddStep name) (depAddStep name m dep)) b
      a ↔ _
    rw [ih, depMem_addStep_other name a ha]

theorem depMem_remStep_name (deps : List String) (name : String)
    (m : List (String × List String)) (dep b : String) :
    depMem (depRemoveStep deps name m dep) b name ↔
      (depMem m b name ∧ ¬(b = dep ∧ b ∉ deps)) := by
  unfold depRemoveStep
  by_cases hd : deps.contains dep
  · rw [if_neg (show ¬((!deps.contains dep) = true) by rw [hd]; simp)]
    by_cases hb : b = dep
    · subst hb
      have hbd : b ∈ deps := (contains_iff deps b).1 hd
      simp [hbd]
    · simp [hb]
  · have hd2 : deps.contains dep = false := by
      cases h2 : deps.contains dep
      · rfl
      · exact absurd h2 hd
    rw [if_pos (show (!deps.contains dep) = true by rw [hd2]; rfl)]
    by_cases hb : b = dep
    · subst hb
      have hbd : b ∉ deps := fun hmem =>
        hd ((contains_iff deps b).2 hmem)
      cases hm : jsGet m b with
      | none =>
        show depMem m b name ↔ _
        unfold depMem
        rw [hm]
        simp [hbd]
      | some ds =>
        show depMem (if (jsSetDelete ds name).isEmpty = true
          then jsDelete m b else jsSet m b (jsSetDelete ds name)) b name ↔ _
        by_cases he : (jsSetDelete ds name).isEmpty
        · rw [if_pos he]
          unfold depMem
          rw [jsGet_jsDelete_self, hm]
          simp [hbd]
        · rw [if_neg he]
          unfold depMem
          rw [jsGet_jsSet_self, hm]
          simp only [Option.getD_some]
          rw [mem_jsSetDelete]
          simp [hbd]
    · have hstep : ∀ m2 : List (String × List String),
          jsGet m2 b = jsGet m b → (depMem m2 b name ↔ depMem m b name) := by
        intro m2 hgb
        unfold depMem
        rw [hgb]
      cases hm : jsGet m dep with
      | none => simp [hb]
      | some ds =>
        show depMem (if (jsSetDelete ds name).isEmpty = true
          then jsDelete m dep else jsSet m dep (jsSetDelete ds name)) b
          name ↔ _
        by_cases he : (jsSetDelete ds name).isEmpty
        · rw [if_pos he]
          rw [hstep (jsDelete m dep) (jsGet_jsDelete_other m dep b hb)]
          simp [hb]
        · rw [if_neg he]
          rw [hstep (jsSet m dep (jsSetDelete ds name))
            (jsGet_jsSet_other m dep b _ hb)]
          simp [hb]

theorem depMem_remStep_other (deps : List String) (name a : String)
    (ha : a ≠ name) (m : List (String × List String)) (dep b : String) :
    depMem (depRemoveStep deps name m dep) b a ↔ depMem m b a := by
  unfold depRemoveStep
  by_cases hd : deps.contains dep
  · rw [if_neg (show ¬((!deps.contains dep) = true) by rw [hd]; simp)]
  · have hd2 : deps.contains dep = false := by
      cases h2 : deps.contains dep
      · rfl
      · exact absurd h2 hd
    rw [if_pos (show (!deps.contains dep) = true by rw [hd2]; rfl)]
    cases hm : jsGet m dep with
    | none => exact Iff.rfl
    | some ds =>
      show depMem (if (jsSetDelete ds name).isEmpty = true
        then jsDelete m dep else jsSet m dep (jsSetDelete ds name)) b a ↔ _
      by_cases hb : b = dep
      · subst hb
        by_cases he : (jsSetDelete ds name).isEmpty
        · rw [if_pos he]
          unfold depMem
          rw [jsGet_jsDelete_self, hm]
          simp only [Option.getD_none, Option.getD_some]
          constructor
          · intro hx
            exact absurd hx (List.not_mem_nil a)
          · intro hx
            exact absurd (jsSetDelete_isEmpty_mem ds name a he hx) ha
        · rw [if_neg he]
          unfold depMem
          rw [jsGet_jsSet_self, hm]
          simp only [Option.getD_some]
          rw [mem_jsSetDelete]
          simp [ha]
      · by_cases he : (jsSetDelete ds name).isEmpty
        · rw [if_pos he]
          unfold depMem
          rw [jsGet_jsDelete_other m dep b hb]
        · rw [if_neg he]
          unfold depMem
          rw [jsGet_jsSet_other m dep b _ hb]

theorem depMem_remFold_name (deps : List String) (name : String) :
    ∀ (l : List String) (m : List (String × List String)) (b : String),
      depMem (l.foldl (depRemoveStep deps name) m) b name ↔
        (depMem m b name ∧ ¬(b ∈ l ∧ b ∉ deps)) := by
  intro l
  induction l with
  | nil => intro m b; simp
  | cons dep rest ih =>
    intro m b
    show depMem (rest.foldl (depRemoveStep deps name)
      (depRemoveStep deps name m dep)) b name ↔ _
    rw [ih, depMem_remStep_name]
    constructor
    · rintro ⟨⟨h1, h2⟩, h3⟩
      refine ⟨h1, ?_⟩
      rintro ⟨hmem, hnd⟩
      rcases List.mem_cons.1 hmem with rfl | hr
      · exact h2 ⟨rfl, hnd⟩
      · exact h3 ⟨hr, hnd⟩
    · rintro ⟨h1, h2⟩
      refine ⟨⟨h1, ?_⟩, ?_⟩
      · rintro ⟨rfl, hnd⟩
        exact h2 ⟨List.mem_cons_self _ _, hnd⟩
      · rintro ⟨hr, hnd⟩
        exact h2 ⟨List.mem_cons_of_mem _ hr, hnd⟩

theorem depMem_remFold_other (deps : List String) (name a : String)
    (ha : a ≠ name) :
    ∀ (l : List String) (m : List (String × List String)) (b : String),
      depMem (l.foldl (depRemoveStep deps name) m) b a ↔ depMem m b a := by
  intro l
  induction l with
  | nil => intro m b; exact Iff.rfl
  | cons dep rest ih =>
    intro m b
    show depMem (rest.foldl (depRemoveStep deps name)
      (depRemoveStep deps name m dep)) b a ↔ _
    rw [ih, depMem_remStep_other deps name a ha]

/-- The core C5 step: `updateDependencyGraph` preserves mutual consistency
of the dependency maps. -/
theorem updateDependencyGraph_consistent (scope : NoteScope)
    (name expr : String) (deps : List String) (h : depConsistent scope) :
    depConsistent (updateDependencyGraph scope name expr deps) := by
  rw [updateDependencyGraph_eq]
  intro a b
  show depMem (deps.foldl (depAddStep name)
      (match jsGet scope.dependencies name with
       | some prev => prev.foldl (depRemoveStep deps name) scope.dependents
       | none => scope.dependents)) b a ↔
    depMem (jsSet scope.dependencies name deps) a b
  by_cases ha : a = name
  · subst ha
    rw [depMem_addFold_name]
    have hR : depMem (jsSet scope.dependencies a deps) a b ↔ b ∈ deps := by
      unfold depMem
      rw [jsGet_jsSet_self]
      simp
    rw [hR]
    constructor
    · rintro (hb | hmem)
      · exact hb
      · by_contra hbd
        cases hprev : jsGet scope.dependencies a with
        | none =>
          rw [hprev] at hmem
          have h2 := (h a b).1 hmem
          unfold depMem at h2
          rw [hprev] at h2
          simp at h2
        | some prev =>
          rw [hprev] at hmem
          rw [depMem_remFold_name] at hmem
          obtain ⟨h1, h2⟩ := hmem
          have h3 := (h a b).1 h1
          unfold depMem at h3
          rw [hprev] at h3
          simp only [Option.getD_some] at h3
          exact h2 ⟨h3, hbd⟩
    · intro hb
      exact Or.inl hb
  · rw [depMem_addFold_other name a ha]
    have hR : depMem (jsSet scope.dependencies name deps) a b ↔
        depMem scope.dependencies a b := by
      unfold depMem
      rw [jsGet_jsSet_other _ _ _ _ ha]
    rw [hR]
    cases hprev : jsGet scope.dependencies name with
    | none => exact h a b
    | some prev =>
      show depMem (prev.foldl (depRemoveStep deps name) scope.dependents)
        b a ↔ _
      rw [depMem_remFold_other deps name a ha]
      exact h a b

/-- A scope returned on the `ok` side of `evaluateLine` keeps the
dependency maps of the input scope consistent (the line evaluator itself
never edits them). -/
theorem evaluateLine_consistent (st : CalcState) (line : String)
    (scope : NoteScope) (system : UnitSystem) (srcl : Option String)
    (pr : LineResult × NoteScope)
    (he : evaluateLine st line scope system srcl = .ok pr)
    (h : depConsistent scope) : depConsistent pr.2 := by
  unfold evaluateLine at he
  split at he
  · cases he
    exact h
  · split at he
    · exact Except.noConfusion he
    · cases he
      exact h
  · split at he
    · exact Except.noConfusion he
    · cases he
      exact h
  · exact Except.noConfusion he
  · split at he
    · exact Except.noConfusion he
    · cases he
      exact h

/-- The per-line loop body preserves consistency of the working scope's
dependency maps. -/
theorem lineStep_scope_consistent (st : CalcState) (bk : String)
    (acc : LoopSt) (i : Nat) (raw : String) (h : depConsistent acc.scope) :
    depConsistent (lineStep st bk acc i raw).scope := by
  simp only [lineStep]
  split
  · exact h
  · split
    · exact h
    · rename_i result scope1 heq
      have h1 : depConsistent scope1 :=
        evaluateLine_consistent _ _ _ _ _ _ heq h
      split
      · exact h1
      · show depConsistent (if _ = true then
          updateDependencyGraph scope1 _ _ _ else scope1)
        split
        · exact updateDependencyGraph_consistent _ _ _ _ h1
        · exact h1
      · exact h1
      · exact h1

theorem runLinesFrom_consistent (st : CalcState) (bk : String) :
    ∀ (ls : List String) (i : Nat) (acc : LoopSt),
      depConsistent acc.scope →
      depConsistent (runLinesFrom st bk i acc ls).scope := by
  intro ls
  induction ls with
  | nil => intro i acc h; exact h
  | cons raw rest ih =>
    intro i acc h
    exact ih (i + 1) (lineStep st bk acc i raw)
      (lineStep_scope_consistent st bk acc i raw h)

/-- Every scope stored in the table satisfies the invariant. -/
def mapConsistent (m : List (String × NoteScope)) : Prop :=
  ∀ p s, jsGet m p = some s → depConsistent s

def scopesConsistent (st : CalcState) : Prop := mapConsistent st.scopes

theorem mapConsistent_insert (m : List (String × NoteScope)) (k : String)
    (v : NoteScope) (hm : mapConsistent m) (hv : depConsistent v) :
    mapConsistent (jsSet m k v) := by
  intro p s hg
  by_cases hp : p = k
  · subst hp
    rw [jsGet_jsSet_self] at hg
    cases hg
    exact hv
  · rw [jsGet_jsSet_other _ _ _ _ hp] at hg
    exact hm p s hg

theorem mapConsistent_delete (m : List (String × NoteScope)) (k : String)
    (hm : mapConsistent m) : mapConsistent (jsDelete m k) := by
  intro p s hg
  by_cases hp : p = k
  · subst hp
    rw [jsGet_jsDelete_self] at hg
    exact Option.noConfusion hg
  · rw [jsGet_jsDelete_other _ _ _ hp] at hg
    exact hm p s hg

theorem getScope_consistent (st : CalcState) (p : String)
    (h : scopesConsistent st) :
    depConsistent (getScope st p).1 ∧ scopesConsistent (getScope st p).2 := by
  unfold getScope
  cases hg : jsGet st.scopes p with
  | some s => exact ⟨h p s hg, h⟩
  | none =>
    refine ⟨depConsistent_empty, ?_⟩
    intro q s hq
    exact mapConsistent_insert st.scopes p emptyNoteScope h
      depConsistent_empty q s hq

theorem resolveWorkingScope_consistent (st : CalcState) (p : String)
    (opts : Option EvaluateOptions) (h : scopesConsistent st) :
    scopesConsistent (resolveWorkingScope st p opts).2 ∧
    (optPersist opts = true →
      depConsistent (resolveWorkingScope st p opts).1) := by
  unfold resolveWorkingScope
  by_cases hp : optPersist opts
  · rw [if_pos hp]
    by_cases hr : optResetScope opts
    · rw [if_pos hr]
      have hdel : scopesConsistent (clearScope st p) := by
        intro q s hq
        exact mapConsistent_delete st.scopes p h q s hq
      exact ⟨(getScope_consistent (clearScope st p) p hdel).2,
        fun _ => (getScope_consistent (clearScope st p) p hdel).1⟩
    · rw [if_neg hr]
      exact ⟨(getScope_consistent st p h).2,
        fun _ => (getScope_consistent st p h).1⟩
  · rw [if_neg hp]
    have hp2 : ¬(optPersist opts = true) := hp
    cases opts.bind (fun o => o.scope) with
    | some s => exact ⟨h, fun hc => absurd hc hp2⟩
    | none => exact ⟨h, fun hc => absurd hc hp2⟩

theorem evaluateToEntries_consistent (st : CalcState) (src p : String)
    (opts : Option EvaluateOptions) (h : scopesConsistent st) :
    scopesConsistent (evaluateToEntries st src p opts).state := by
  have hres := resolveWorkingScope_consistent st p opts h
  by_cases hp : optPersist opts
  · intro q s hq
    rw [evaluateToEntries_eq, if_pos hp] at hq
    have hq2 : jsGet (jsSet (resolveWorkingScope st p opts).2.scopes p
        (blockFinalScope st src p opts)) q = some s := hq
    have hfs : depConsistent (blockFinalScope st src p opts) := by
      have hws : depConsistent (resolveWorkingScope st p opts).1 :=
        hres.2 hp
      have hout : depConsistent (blockOut st src p opts).scope :=
        runLinesFrom_consistent _ _ _ 0 _ hws
      exact hout
    exact mapConsistent_insert _ _ _ hres.1 hfs q s hq2
  · intro q s hq
    rw [evaluateToEntries_eq, if_neg hp] at hq
    exact hres.1 q s hq

theorem evaluateInline_consistent (st : CalcState) (src : String)
    (ctx : MDContext) (h : scopesConsistent st) :
    scopesConsistent (evaluateInline st src ctx).2 := by
  simp only [evaluateInline]
  split
  · exact h
  · have hg := getScope_consistent st (contextPath ctx) h
    split
    · rename_i result scope1 heq
      have h1 : depConsistent scope1 :=
        evaluateLine_consistent _ _ _ _ _ _ heq hg.1
      split
      all_goals
        intro q s hq
        exact mapConsistent_insert _ _ _ hg.2 h1 q s hq
    · exact hg.2

theorem loadGlobalVars_scopes (st : CalcState)
    (es : List (String × Option PersistedGlobalVarEntry)) :
    (loadGlobalVars st es).scopes = st.scopes := by
  have hfold : ∀ (l : List (String × Option PersistedGlobalVarEntry))
      (acc : CalcState),
      (l.foldl (fun s p =>
        match p.2 with
        | none => s
        | some e => loadGlobalEntry s p.1 e) acc).scopes = acc.scopes := by
    intro l
    induction l with
    | nil => intro acc; rfl
    | cons e rest ih =>
      intro acc
      show (rest.foldl _ (match e.2 with
        | none => acc
        | some x => loadGlobalEntry acc e.1 x)).scopes = acc.scopes
      rw [ih]
      cases e.2 <;> rfl
  exact hfold es { st with globalVars := [] }

theorem upsertGlobalVar_scopes (st : CalcState) (name source : String)
    (r : CalcState × GlobalVarEntry)
    (h : upsertGlobalVar st name source = .ok r) : r.1.scopes = st.scopes := by
  simp only [upsertGlobalVar] at h
  split at h
  · exact Except.noConfusion h
  · split at h
    · exact Except.noConfusion h
    · split at h
      · exact Except.noConfusion h
      · split at h
        · exact Except.noConfusion h
        · cases h
          rfl

theorem deleteGlobalVar_scopes (st : CalcState) (name : String) :
    (deleteGlobalVar st name).scopes = st.scopes := by
  simp only [deleteGlobalVar]
  split <;> rfl

/-- Every engine operation preserves consistency of all stored scopes. -/
theorem applyOp_consistent (st : CalcState) (op : EngineOp)
    (h : scopesConsistent st) : scopesConsistent (applyOp st op) := by
  cases op with
  | getScopeOp p => exact (getScope_consistent st p h).2
  | clearScopeOp p =>
    intro q s hq
    exact mapConsistent_delete st.scopes p h q s hq
  | clearAllScopesOp =>
    intro q s hq
    exact Option.noConfusion hq
  | evaluateBlockOp src ctx =>
    exact evaluateToEntries_consistent st src (contextPath ctx)
      (some (blockEvalOptions st ctx src)) h
  | evaluateInlineOp src ctx => exact evaluateInline_consistent st src ctx h
  | evaluateToEntriesOp src p opts =>
    exact evaluateToEntries_consistent st src p opts h
  | loadGlobalVarsOp es =>
    intro q s hq
    have hq2 : jsGet (loadGlobalVars st es).scopes q = some s := hq
    rw [loadGlobalVars_scopes] at hq2
    exact h q s hq2
  | upsertGlobalVarOp n src =>
    show scopesConsistent (match upsertGlobalVar st n src with
      | .ok r => r.1
      | .error _ => st)
    cases hu : upsertGlobalVar st n src with
    | error e => exact h
    | ok r =>
      intro q s hq
      have hq2 : jsGet r.1.scopes q = some s := hq
      rw [upsertGlobalVar_scopes st n src r hu] at hq2
      exact h q s hq2
  | deleteGlobalVarOp n =>
    intro q s hq
    have hq2 : jsGet (deleteGlobalVar st n).scopes q = some s := hq
    rw [deleteGlobalVar_scopes] at hq2
    exact h q s hq2
  | configureOp s2 => exact h

theorem runOps_consistent :
    ∀ (ops : List EngineOp) (st : CalcState), scopesConsistent st →
      scopesConsistent (runOps st ops) := by
  intro ops
  induction ops with
  | nil => intro st h; exact h
  | cons op rest ih =>
    intro st h
    exact ih (applyOp st op) (applyOp_consistent st op h)

theorem initialCalcState_consistent (settings : Settings) :
    scopesConsistent (initialCalcState settings) := by
  intro q s hq
  exact Option.noConfusion hq

/-- C5: in every note scope reachable from a fresh engine by any sequence
of public operations, the forward and reverse dependency maps are mutually
consistent (`a ∈ dependents[b]` exactly when `b ∈ dependencies[a]`); and
`updateDependencyGraph` both preserves that invariant and, on a recompute
whose new dependency set no longer contains `b`, removes the stale reverse
edge `name ∈ dependents[b]`. -/
theorem c5_dependency_graph_consistency :
    (∀ (settings : Settings) (ops : List EngineOp) (p : String)
        (scope : NoteScope),
      jsGet (runOps (initialCalcState settings) ops).scopes p = some scope →
      depConsistent scope) ∧
    (∀ (scope : NoteScope) (name expr : String) (deps : List String),
      depConsistent scope →
      depConsistent (updateDependencyGraph scope name expr deps) ∧
      ∀ b, b ∉ deps →
        name ∉ (jsGet (updateDependencyGraph scope name expr
          deps).dependents b).getD []) := by
  constructor
  · intro settings ops p scope hget
    exact runOps_consistent ops (initialCalcState settings)
      (initialCalcState_consistent settings) p scope hget
  · intro scope name expr deps h
    have h2 := updateDependencyGraph_consistent scope name expr deps h
    refine ⟨h2, ?_⟩
    intro b hb hmem
    have h3 := (h2 name b).1 hmem
    unfold depMem at h3
    rw [updateDependencyGraph_eq] at h3
    have h4 : b ∈ (jsGet (jsSet scope.dependencies name deps) name).getD [] :=
      h3
    rw [jsGet_jsSet_self] at h4
    simp only [Option.getD_some] at h4
    exact hb h4

/-- Witness for C5 at concrete inputs: the scope lazily created by a
`getScope` call is stored and consistent, and recomputing `a` with the
dependency set `["b"]` leaves no stale reverse edge under `"c"`. -/
theorem c5_dependency_graph_consistency_witness :
    (jsGet (runOps (initialCalcState demoSettings)
        [EngineOp.getScopeOp "doc"]).scopes "doc" = some emptyNoteScope ∧
      depConsistent emptyNoteScope) ∧
    ("c" ∉ ["b"] ∧
      "a" ∉ (jsGet (updateDependencyGraph emptyNoteScope "a" "b + 1"
        ["b"]).dependents "c").getD []) :=
  ⟨⟨rfl, c5_dependency_graph_consistency.1 demoSettings
      [EngineOp.getScopeOp "doc"] "doc" emptyNoteScope rfl⟩,
   ⟨by decide,
    (c5_dependency_graph_consistency.2 emptyNoteScope "a" "b + 1" ["b"]
      depConsistent_empty).2 "c" (by decide)⟩⟩

/-! ## C2: per-line error isolation -/

/-- One loop step always appends exactly one entry, and the produced
scope, appended entry and visited set do not depend on the entries
accumulated so far. -/
theorem lineStep_acc2 (st : CalcState) (bk : String) (i : Nat) (raw : String)
    (s : NoteScope) (v : List String)
    (es1 es2 : List EvaluatedLine) :
    (lineStep st bk ⟨s, es1, v⟩ i raw).scope =
      (lineStep st bk ⟨s, es2, v⟩ i raw).scope ∧
    (lineStep st bk ⟨s, es1, v⟩ i raw).visited =
      (lineStep st bk ⟨s, es2, v⟩ i raw).visited ∧
    ∃ e, (lineStep st bk ⟨s, es1, v⟩ i raw).entries = es1 ++ [e] ∧
      (lineStep st bk ⟨s, es2, v⟩ i raw).entries = es2 ++ [e] := by
  simp only [lineStep]
  split
  · exact ⟨rfl, rfl, _, rfl, rfl⟩
  · split
    · exact ⟨rfl, rfl, _, rfl, rfl⟩
    · split <;> exact ⟨rfl, rfl, _, rfl, rfl⟩

/-- The loop's scope and visited set do not depend on the accumulated
entries, and the entries produced by the remaining lines form a common
tail. -/
theorem runLinesFrom_acc2 (st : CalcState) (bk : String) :
    ∀ (ls : List String) (i : Nat) (s : NoteScope) (v : List String)
      (es1 es2 : List EvaluatedLine),
      (runLinesFrom st bk i ⟨s, es1, v⟩ ls).scope =
        (runLinesFrom st bk i ⟨s, es2, v⟩ ls).scope ∧
      (runLinesFrom st bk i ⟨s, es1, v⟩ ls).visited =
        (runLinesFrom st bk i ⟨s, es2, v⟩ ls).visited ∧
      ∃ tail, (runLinesFrom st bk i ⟨s, es1, v⟩ ls).entries = es1 ++ tail ∧
        (runLinesFrom st bk i ⟨s, es2, v⟩ ls).entries = es2 ++ tail := by
  intro ls
  induction ls with
  | nil =>
    intro i s v es1 es2
    exact ⟨rfl, rfl, [], (List.append_nil es1).symm, (List.append_nil es2).symm⟩
  | cons raw rest ih =>
    intro i s v es1 es2
    obtain ⟨hs, hv, e, he1, he2⟩ := lineStep_acc2 st bk i raw s v es1 es2
    have hX1 : lineStep st bk ⟨s, es1, v⟩ i raw =
        ⟨(lineStep st bk ⟨s, es2, v⟩ i raw).scope, es1 ++ [e],
         (lineStep st bk ⟨s, es2, v⟩ i raw).visited⟩ := by
      rw [← hs, ← hv, ← he1]
    have hX2 : lineStep st bk ⟨s, es2, v⟩ i raw =
        ⟨(lineStep st bk ⟨s, es2, v⟩ i raw).scope, es2 ++ [e],
         (lineStep st bk ⟨s, es2, v⟩ i raw).visited⟩ := by
      rw [← he2]
    obtain ⟨ih1, ih2, tail, iht1, iht2⟩ := ih (i + 1)
      (lineStep st bk ⟨s, es2, v⟩ i raw).scope
      (lineStep st bk ⟨s, es2, v⟩ i raw).visited
      (es1 ++ [e]) (es2 ++ [e])
    refine ⟨?_, ?_, e :: tail, ?_, ?_⟩
    · show (runLinesFrom st bk (i + 1) (lineStep st bk ⟨s, es1, v⟩ i raw)
        rest).scope = (runLinesFrom st bk (i + 1)
        (lineStep st bk ⟨s, es2, v⟩ i raw) rest).scope
      rw [hX1, hX2]
      exact ih1
    · show (runLinesFrom st bk (i + 1) (lineStep st bk ⟨s, es1, v⟩ i raw)
        rest).visited = (runLinesFrom st bk (i + 1)
        (lineStep st bk ⟨s, es2, v⟩ i raw) rest).visited
      rw [hX1, hX2]
      exact ih2
    · show (runLinesFrom st bk (i + 1) (lineStep st bk ⟨s, es1, v⟩ i raw)
        rest).entries = es1 ++ e :: tail
      rw [hX1, iht1]
      simp
    · show (runLinesFrom st bk (i + 1) (lineStep st bk ⟨s, es2, v⟩ i raw)
        rest).entries = es2 ++ e :: tail
      rw [hX2, iht2]
      simp

theorem lineStep_length (st : CalcState) (bk : String) (acc : LoopSt)
    (i : Nat) (raw : String) :
    (lineStep st bk acc i raw).entries.length = acc.entries.length + 1 := by
  simp only [lineStep]
  split
  · simp
  · split
    · simp
    · split <;> simp

theorem runLinesFrom_length (st : CalcState) (bk : String) :
    ∀ (ls : List String) (i : Nat) (acc : LoopSt),
      (runLinesFrom st bk i acc ls).entries.length =
        acc.entries.length + ls.length := by
  intro ls
  induction ls with
  | nil => intro i acc; simp [runLinesFrom]
  | cons raw rest ih =>
    intro i acc
    show (runLinesFrom st bk (i + 1) (lineStep st bk acc i raw)
      rest).entries.length = _
    rw [ih, lineStep_length]
    simp [List.length_cons]
    omega

theorem runLinesFrom_append (st : CalcState) (bk : String) :
    ∀ (l1 l2 : List String) (i : Nat) (acc : LoopSt),
      runLinesFrom st bk i acc (l1 ++ l2) =
        runLinesFrom st bk (i + l1.length) (runLinesFrom st bk i acc l1)
          l2 := by
  intro l1
  induction l1 with
  | nil => intro l2 i acc; rfl
  | cons raw rest ih =>
    intro l2 i acc
    show runLinesFrom st bk (i + 1) (lineStep st bk acc i raw)
      (rest ++ l2) = _
    rw [ih]
    have hidx : i + 1 + rest.length = i + (rest.length + 1) := by omega
    rw [List.length_cons, ← hidx]
    rfl

/-- The error entry recorded for a line whose evaluation threw `msg`. -/
def errorEntry (raw msg : String) : EvaluatedLine :=
  { baseEntry raw (jsTrim raw) .error with
      error := some msg, plain := some (jsTrim raw) }

theorem lineStep_blank (st : CalcState) (bk : String) (acc : LoopSt)
    (i : Nat) :
    lineStep st bk acc i "" =
      ⟨acc.scope, acc.entries ++ [baseEntry "" "" .blank],
       jsAdd acc.visited (bk ++ ":" ++ toString i)⟩ := rfl

theorem lineStep_error (st : CalcState) (bk : String) (acc : LoopSt)
    (i : Nat) (raw msg : String)
    (hne : (jsTrim raw == "") = false)
    (he : evaluateLine st (jsTrim raw) acc.scope
      st.settings.defaultUnitSystem (some (jsTrim raw)) = .error msg) :
    lineStep st bk acc i raw =
      ⟨acc.scope, acc.entries ++ [errorEntry raw msg],
       jsAdd acc.visited (bk ++ ":" ++ toString i)⟩ := by
  simp only [lineStep]
  rw [if_neg (show ¬((jsTrim raw == "") = true) by rw [hne]; simp), he]
  rfl

/-- The loop result over the `pre` prefix of a block's lines. -/
def preRun (st : CalcState) (src p : String)
    (opts : Option EvaluateOptions) (pre : List String) : LoopSt :=
  runLinesFrom (resolveWorkingScope st p opts).2 (optBlockKey opts p src) 0
    ⟨(resolveWorkingScope st p opts).1, [], []⟩ pre

theorem getElem?_append_middle_ne {α : Type} (E tail : List α) (x y : α)
    (j : Nat) (hj : j ≠ E.length) :
    ((E ++ [x]) ++ tail)[j]? = ((E ++ [y]) ++ tail)[j]? := by
  rcases Nat.lt_or_ge j E.length with hlt | hge
  · have h1 : j < (E ++ [x]).length := by simp; omega
    have h2 : j < (E ++ [y]).length := by simp; omega
    rw [List.getElem?_append_left h1, List.getElem?_append_left h2,
      List.getElem?_append_left hlt, List.getElem?_append_left hlt]
  · have h1 : (E ++ [x]).length ≤ j := by simp; omega
    have h2 : (E ++ [y]).length ≤ j := by simp; omega
    rw [List.getElem?_append_right h1, List.getElem?_append_right h2]
    simp [List.length_append]

/-- C2: (i) every line of a block yields exactly one entry (no thrown
error ever aborts the loop or escapes `evaluateToEntries`); (ii) when the
line at position `pre.length` throws `msg` under the scope reached there,
its entry alone is the error entry carrying the failure message, and every
other line's entry, the final scope, and the resulting engine state are
exactly those of the same block with the failing line blanked out — the
failure is confined to its own line and assignments made by earlier lines
stay usable by later lines; (iii) an inline statement that throws renders
an error span, the engine state changed only by the lazy scope creation of
`getScope` — nothing propagates to the caller. -/
theorem c2_error_isolation :
    (∀ (st : CalcState) (src p : String) (opts : Option EvaluateOptions),
      (evaluateToEntries st src p opts).entries.length =
        (splitLines src).length) ∧
    (∀ (st : CalcState) (src src2 p : String)
        (opts : Option EvaluateOptions) (pre post : List String)
        (raw msg : String),
      splitLines src = pre ++ raw :: post →
      splitLines src2 = pre ++ "" :: post →
      optBlockKey opts p src2 = optBlockKey opts p src →
      (jsTrim raw == "") = false →
      evaluateLine (resolveWorkingScope st p opts).2 (jsTrim raw)
        (preRun st src p opts pre).scope
        (resolveWorkingScope st p opts).2.settings.defaultUnitSystem
        (some (jsTrim raw)) = .error msg →
      (evaluateToEntries st src p opts).entries[pre.length]? =
          some (errorEntry raw msg) ∧
      (∀ j, j ≠ pre.length →
        (evaluateToEntries st src p opts).entries[j]? =
          (evaluateToEntries st src2 p opts).entries[j]?) ∧
      (evaluateToEntries st src p opts).scope =
        (evaluateToEntries st src2 p opts).scope ∧
      (evaluateToEntries st src p opts).state =
        (evaluateToEntries st src2 p opts).state) ∧
    (∀ (st : CalcState) (src : String) (ctx : MDContext) (msg : String),
      (jsTrim src == "") = false →
      evaluateLine (getScope st (contextPath ctx)).2 (jsTrim src)
        (getScope st (contextPath ctx)).1
        (getScope st (contextPath ctx)).2.settings.defaultUnitSystem none =
        .error msg →
      evaluateInline st src ctx =
        (.errorText ("Error: " ++ msg),
          (getScope st (contextPath ctx)).2)) := by
  refine ⟨?_, ?_, ?_⟩
  · intro st src p opts
    rw [evaluateToEntries_eq]
    show (blockOut st src p opts).entries.length = _
    unfold blockOut
    rw [runLinesFrom_length]
    simp
  · intro st src src2 p opts pre post raw msg hsplit hsplit2 hbk hne he
    have hrun1 : blockOut st src p opts =
        runLinesFrom (resolveWorkingScope st p opts).2
          (optBlockKey opts p src) (pre.length + 1)
          ⟨(preRun st src p opts pre).scope,
           (preRun st src p opts pre).entries ++ [errorEntry raw msg],
           jsAdd (preRun st src p opts pre).visited
             (optBlockKey opts p src ++ ":" ++ toString pre.length)⟩
          post := by
      unfold blockOut
      rw [hsplit, runLinesFrom_append, Nat.zero_add]
      show runLinesFrom (resolveWorkingScope st p opts).2
        (optBlockKey opts p src) (pre.length + 1)
        (lineStep (resolveWorkingScope st p opts).2 (optBlockKey opts p src)
          (preRun st src p opts pre) pre.length raw) post = _
      rw [lineStep_error _ _ _ _ _ _ hne he]
    have hrun2 : blockOut st src2 p opts =
        runLinesFrom (resolveWorkingScope st p opts).2
          (optBlockKey opts p src) (pre.length + 1)
          ⟨(preRun st src p opts pre).scope,
           (preRun st src p opts pre).entries ++
             [baseEntry "" "" EvaluatedLineType.blank],
           jsAdd (preRun st src p opts pre).visited
             (optBlockKey opts p src ++ ":" ++ toString pre.length)⟩
          post := by
      unfold blockOut
      rw [hsplit2, hbk, runLinesFrom_append, Nat.zero_add]
      show runLinesFrom (resolveWorkingScope st p opts).2
        (optBlockKey opts p src) (pre.length + 1)
        (lineStep (resolveWorkingScope st p opts).2 (optBlockKey opts p src)
          (preRun st src p opts pre) pre.length "") post = _
      rw [lineStep_blank]
    obtain ⟨hs, hv, tail, ht1, ht2⟩ :=
      runLinesFrom_acc2 (resolveWorkingScope st p opts).2
        (optBlockKey opts p src) post (pre.length + 1)
        (preRun st src p opts pre).scope
        (jsAdd (preRun st src p opts pre).visited
          (optBlockKey opts p src ++ ":" ++ toString pre.length))
        ((preRun st src p opts pre).entries ++ [errorEntry raw msg])
        ((preRun st src p opts pre).entries ++
          [baseEntry "" "" EvaluatedLineType.blank])
    have hE1 : (evaluateToEntries st src p opts).entries =
        ((preRun st src p opts pre).entries ++ [errorEntry raw msg]) ++
          tail := by
      rw [evaluateToEntries_eq]
      show (blockOut st src p opts).entries = _
      rw [hrun1]
      exact ht1
    have hE2 : (evaluateToEntries st src2 p opts).entries =
        ((preRun st src p opts pre).entries ++
          [baseEntry "" "" EvaluatedLineType.blank]) ++ tail := by
      rw [evaluateToEntries_eq]
      show (blockOut st src2 p opts).entries = _
      rw [hrun2]
      exact ht2
    have hlen : (preRun st src p opts pre).entries.length = pre.length := by
      unfold preRun
      rw [runLinesFrom_length]
      simp
    have hsc : (blockOut st src p opts).scope =
        (blockOut st src2 p opts).scope := by
      rw [hrun1, hrun2]
      exact hs
    have hvs : (blockOut st src p opts).visited =
        (blockOut st src2 p opts).visited := by
      rw [hrun1, hrun2]
      exact hv
    have hfinal : blockFinalScope st src p opts =
        blockFinalScope st src2 p opts := by
      unfold blockFinalScope
      rw [hbk, hsc, hvs]
    refine ⟨?_, ?_, ?_, ?_⟩
    · rw [hE1, ← hlen]
      have h1 : (preRun st src p opts pre).entries.length <
          ((preRun st src p opts pre).entries ++ [errorEntry raw msg]).length := by
        simp
      rw [List.getElem?_append_left h1,
        List.getElem?_append_right (Nat.le_refl _)]
      simp
    · intro j hj
      rw [hE1, hE2]
      exact getElem?_append_middle_ne _ _ _ _ j
        (by rw [hlen]; exact hj)
    · rw [evaluateToEntries_eq, evaluateToEntries_eq]
      exact hfinal
    · rw [evaluateToEntries_eq, evaluateToEntries_eq]
      show (if optPersist opts then _ else _ : CalcState) = _
      rw [hfinal]
  · intro st src ctx msg hne he
    simp only [evaluateInline]
    rw [if_neg (show ¬((jsTrim src == "") = true) by rw [hne]; simp), he]

set_option maxRecDepth 8192

/-- Witness for C2: the spec's example block — the `undefinedVar` line
yields the error entry with mathjs's message, line 3 still sees `a` and
produces the same entry as in the blanked block, and an inline statement
with an undefined symbol renders an error span. -/
theorem c2_error_isolation_witness :
    (evaluateToEntries (initialCalcState demoSettings)
        "a = 1\nb = a + undefinedVar\nc = a * 2" "doc" demoOpts).entries.length =
      (splitLines "a = 1\nb = a + undefinedVar\nc = a * 2").length ∧
    (evaluateToEntries (initialCalcState demoSettings)
        "a = 1\nb = a + undefinedVar\nc = a * 2" "doc" demoOpts).entries[1]? =
      some (errorEntry "b = a + undefinedVar"
        "Undefined symbol undefinedVar") ∧
    (evaluateToEntries (initialCalcState demoSettings)
        "a = 1\nb = a + undefinedVar\nc = a * 2" "doc" demoOpts).entries[2]? =
      (evaluateToEntries (initialCalcState demoSettings)
        "a = 1\n\nc = a * 2" "doc" demoOpts).entries[2]? ∧
    evaluateInline (initialCalcState demoSettings) "x + 1" demoCtx =
      (InlineRender.errorText ("Error: Undefined symbol x"),
        (getScope (initialCalcState demoSettings)
          (contextPath demoCtx)).2) :=
  ⟨c2_error_isolation.1 (initialCalcState demoSettings)
      "a = 1\nb = a + undefinedVar\nc = a * 2" "doc" demoOpts,
   (c2_error_isolation.2.1 (initialCalcState demoSettings)
      "a = 1\nb = a + undefinedVar\nc = a * 2" "a = 1\n\nc = a * 2" "doc"
      demoOpts ["a = 1"] ["c = a * 2"] "b = a + undefinedVar"
      "Undefined symbol undefinedVar" (by decide) (by decide) (by decide)
      (by decide) (except_error_of_check _ _ (by decide))).1,
   ((c2_error_isolation.2.1 (initialCalcState demoSettings)
      "a = 1\nb = a + undefinedVar\nc = a * 2" "a = 1\n\nc = a * 2" "doc"
      demoOpts ["a = 1"] ["c = a * 2"] "b = a + undefinedVar"
      "Undefined symbol undefinedVar" (by decide) (by decide) (by decide)
      (by decide) (except_error_of_check _ _ (by decide))).2.1 2
      (by decide)),
   c2_error_isolation.2.2 (initialCalcState demoSettings) "x + 1" demoCtx
     "Undefined symbol x" (by decide) (except_error_of_check _ _ (by decide))⟩

/-! ## C9: scope isolation between document identities -/

/-- C9: evaluating any block under document identity `p` leaves the note
scope stored for any other identity `q` unchanged, and an assignment made
under `p` is invisible to later evaluations under `q`: any follow-up block
evaluated under `q` (in particular one with structurally identical text)
produces exactly the entries and final scope it would have produced had
the evaluation under `p` never happened. -/
theorem c9_scope_isolation (st : CalcState) (src p : String)
    (opts : Option EvaluateOptions) (q : String) (hq : q ≠ p) :
    jsGet (evaluateToEntries st src p opts).state.scopes q =
      jsGet st.scopes q ∧
    ∀ (src2 : String) (opts2 : Option EvaluateOptions),
      (evaluateToEntries (evaluateToEntries st src p opts).state
          src2 q opts2).entries =
        (evaluateToEntries st src2 q opts2).entries ∧
      (evaluateToEntries (evaluateToEntries st src p opts).state
          src2 q opts2).scope =
        (evaluateToEntries st src2 q opts2).scope := by
  have hframe := evaluateToEntries_state_frame st src p opts
  refine ⟨hframe.2.2 q hq, ?_⟩
  intro src2 opts2
  exact evaluateToEntries_congr _ st src2 q opts2 (hframe.2.2 q hq)
    hframe.1 hframe.2.1

/-- Witness for C9 at a concrete input: assigning `x = 5` under `p` leaves
the stored scope of `q` alone, and evaluating the block `x` (structurally
identical text on both sides) under `q` afterwards gives exactly the
entries of evaluating it without the `p` run. -/
theorem c9_scope_isolation_witness :
    jsGet (evaluateToEntries demoStateX "x = 5" "p" demoOpts).state.scopes
        "q" = jsGet demoStateX.scopes "q" ∧
    (evaluateToEntries (evaluateToEntries demoStateX "x = 5" "p"
        demoOpts).state "x" "q" demoOpts).entries =
      (evaluateToEntries demoStateX "x" "q" demoOpts).entries :=
  ⟨(c9_scope_isolation demoStateX "x = 5" "p" demoOpts "q" (by decide)).1,
   ((c9_scope_isolation demoStateX "x = 5" "p" demoOpts "q"
      (by decide)).2 "x" demoOpts).1⟩

/-! ## C3: idempotence of re-evaluating unchanged block text -/

/-- Block options with `resetScope := true` (the `evaluateBlock`
configuration when auto-recalculation is enabled). -/
def demoOptsReset : Option EvaluateOptions :=
  some ⟨some true, none, some true, some "k"⟩

/-- C3 counterexample: re-evaluating the byte-identical block `x = x + 1`
under the same document identity, block key and options, with no other
mutation in between, produces a different per-line result the second time
(value 3 instead of 2) and mutates the stored variable again — the
evaluation is not idempotent against an unreset persisted scope. -/
theorem c3_counterexample :
    ((evaluateToEntries demoStateX "x = x + 1" "doc" demoOpts).entries.map
      (fun e => e.value) = [some 2]) ∧
    ((evaluateToEntries (evaluateToEntries demoStateX "x = x + 1" "doc"
        demoOpts).state "x = x + 1" "doc" demoOpts).entries.map
      (fun e => e.value) = [some 3]) ∧
    ¬((evaluateToEntries (evaluateToEntries demoStateX "x = x + 1" "doc"
        demoOpts).state "x = x + 1" "doc" demoOpts).entries =
      (evaluateToEntries demoStateX "x = x + 1" "doc" demoOpts).entries) ∧
    ¬((evaluateToEntries (evaluateToEntries demoStateX "x = x + 1" "doc"
        demoOpts).state "x = x + 1" "doc" demoOpts).scope.vars =
      (evaluateToEntries demoStateX "x = x + 1" "doc" demoOpts).scope.vars) := by
  decide

/-- On the persisting path with `resetScope`, the working scope is always
the fresh empty scope. -/
theorem resolveWorkingScope_reset (st : CalcState) (p : String)
    (opts : Option EvaluateOptions) (hp : optPersist opts = true)
    (hr : optResetScope opts = true) :
    (resolveWorkingScope st p opts).1 = emptyNoteScope := by
  unfold resolveWorkingScope
  rw [if_pos hp, if_pos hr]
  show (getScope (clearScope st p) p).1 = _
  rw [getScope_fst]
  show (jsGet (jsDelete st.scopes p) p).getD emptyNoteScope = _
  rw [jsGet_jsDelete_self]
  rfl

/-- On the persisting path the final scope is stored under the evaluated
path. -/
theorem evaluateToEntries_stored (st : CalcState) (src p : String)
    (opts : Option EvaluateOptions) (hp : optPersist opts = true) :
    jsGet (evaluateToEntries st src p opts).state.scopes p =
      some (blockFinalScope st src p opts) := by
  rw [evaluateToEntries_eq, if_pos hp]
  show jsGet (jsSet (resolveWorkingScope st p opts).2.scopes p
    (blockFinalScope st src p opts)) p = _
  rw [jsGet_jsSet_self]

/-- C3 amended: re-evaluating byte-identical block text is idempotent when
the pass starts from a reset scope (persisting with `resetScope`, the
`evaluateBlock` configuration under auto-recalculation): the second
evaluation yields the identical entry list, the identical final scope
(variables, formulas, both dependency maps and the line cache), and every
stored scope reads back exactly as after the first evaluation.  (Against
an unreset persisted scope the guarantee fails — see the recorded
counterexample `x = x + 1`.) -/
theorem c3_amended (st : CalcState) (src p : String)
    (opts : Option EvaluateOptions) (hp : optPersist opts = true)
    (hr : optResetScope opts = true) :
    (evaluateToEntries (evaluateToEntries st src p opts).state src p
        opts).entries = (evaluateToEntries st src p opts).entries ∧
    (evaluateToEntries (evaluateToEntries st src p opts).state src p
        opts).scope = (evaluateToEntries st src p opts).scope ∧
    ∀ q, jsGet (evaluateToEntries (evaluateToEntries st src p opts).state
        src p opts).state.scopes q =
      jsGet (evaluateToEntries st src p opts).state.scopes q := by
  have hframe1 := evaluateToEntries_state_frame st src p opts
  have hg : (resolveWorkingScope (evaluateToEntries st src p opts).state p
      opts).2.globalVars = (resolveWorkingScope st p opts).2.globalVars := by
    rw [(resolveWorkingScope_state (evaluateToEntries st src p opts).state
      p opts).1, (resolveWorkingScope_state st p opts).1, hframe1.1]
  have hsett : (resolveWorkingScope (evaluateToEntries st src p opts).state
      p opts).2.settings = (resolveWorkingScope st p opts).2.settings := by
    rw [(resolveWorkingScope_state (evaluateToEntries st src p opts).state
      p opts).2.1, (resolveWorkingScope_state st p opts).2.1, hframe1.2.1]
  have hout : blockOut (evaluateToEntries st src p opts).state src p opts =
      blockOut st src p opts := by
    unfold blockOut
    rw [resolveWorkingScope_reset (evaluateToEntries st src p opts).state
      p opts hp hr, resolveWorkingScope_reset st p opts hp hr]
    exact runLinesFrom_congr _ _ hg hsett _ _ _ _
  have hfs : blockFinalScope (evaluateToEntries st src p opts).state src p
      opts = blockFinalScope st src p opts := by
    unfold blockFinalScope
    rw [hout]
  refine ⟨?_, ?_, ?_⟩
  · rw [evaluateToEntries_eq, evaluateToEntries_eq]
    show (blockOut (evaluateToEntries st src p opts).state src p
      opts).entries = (blockOut st src p opts).entries
    rw [hout]
  · rw [evaluateToEntries_eq, evaluateToEntries_eq]
    exact hfs
  · intro q
    by_cases hq : q = p
    · subst hq
      rw [evaluateToEntries_stored _ _ _ _ hp,
        evaluateToEntries_stored _ _ _ _ hp, hfs]
    · rw [(evaluateToEntries_state_frame (evaluateToEntries st src p
        opts).state src p opts).2.2 q hq]

/-- Witness for the amended C3 at a concrete input: with the
auto-recalculation options (reset scope) even the self-referential block
`x = x + 1` re-evaluates to the identical entries, final scope and stored
scopes. -/
theorem c3_amended_witness :
    optPersist demoOptsReset = true ∧
    optResetScope demoOptsReset = true ∧
    ((evaluateToEntries (evaluateToEntries demoStateX "x = x + 1" "doc"
        demoOptsReset).state "x = x + 1" "doc" demoOptsReset).entries =
      (evaluateToEntries demoStateX "x = x + 1" "doc"
        demoOptsReset).entries ∧
    (evaluateToEntries (evaluateToEntries demoStateX "x = x + 1" "doc"
        demoOptsReset).state "x = x + 1" "doc" demoOptsReset).scope =
      (evaluateToEntries demoStateX "x = x + 1" "doc" demoOptsReset).scope ∧
    ∀ q, jsGet (evaluateToEntries (evaluateToEntries demoStateX "x = x + 1"
        "doc" demoOptsReset).state "x = x + 1" "doc"
        demoOptsReset).state.scopes q =
      jsGet (evaluateToEntries demoStateX "x = x + 1" "doc"
        demoOptsReset).state.scopes q) :=
  ⟨by decide, by decide,
   c3_amended demoStateX "x = x + 1" "doc" demoOptsReset (by decide)
     (by decide)⟩

end Toolbox

